import Mathlib

/-!
Shallow embedding of the PnL analytics engine
(backend/src/analytics/pnl_analytics.py) and proofs about it.

Modelling conventions:
- pandas timestamps are modelled as integers (day numbers), tickers as strings;
- float columns that can hold NaN after a merge are modelled as `Option ℚ`
  (`none` is NaN; over ℚ no infinities arise);
- fallible pandas operations (`pd.concat` over an empty list of group frames
  raises ValueError) are modelled with `Except String`;
- `DataFrame.sort_values` with a list of keys uses a stable lexicographic sort
  in pandas; it is modelled by `List.insertionSort` with the corresponding
  total preorder, which inserts each earlier element before later elements
  with an equal key and is therefore stable.
-/

namespace PnLAnalytics

/-- A row of the trades table: trade_date, ticker, signed quantity
(renamed to shares by the constructor) and execution price. -/
structure Trade where
  trade_date : ℤ
  ticker : String
  shares : ℤ
  price : ℚ
  deriving Repr, DecidableEq

/-- A row of the prices table: trade_date, ticker and close price. -/
structure PriceObs where
  trade_date : ℤ
  ticker : String
  close_price : ℚ
  deriving Repr, DecidableEq

/-- The running state of the position ledger for one ticker:
current signed position size and current cost/proceeds basis. -/
structure PosState where
  position_size : ℤ
  position_basis : ℚ
  deriving Repr, DecidableEq

/-- One output row of calculate_pnl_for_multiple_tickers: the original trade
fields plus the post-trade position size, basis and realized PnL. -/
structure LedgerRow where
  trade_date : ℤ
  ticker : String
  shares : ℤ
  price : ℚ
  position_size_after_trade : ℤ
  position_basis_after_trade : ℚ
  realized_pnl : ℚ
  deriving Repr, DecidableEq

/-- The loop body of process_ticker_trades (pnl_analytics.py lines 168-222):
given the pre-trade state and one trade (signed share quantity and price),
return the post-trade state and the realized PnL of this trade. -/
def process_trade (s : PosState) (trade_shares : ℤ) (trade_price : ℚ) :
    PosState × ℚ :=
  if s.position_size = 0 then
    -- Opening new position
    ({ position_size := trade_shares, position_basis := trade_price }, 0)
  else if 0 < s.position_size then
    -- Currently long
    if 0 < trade_shares then
      -- Adding to long position
      let total_cost : ℚ :=
        (s.position_size : ℚ) * s.position_basis + (trade_shares : ℚ) * trade_price
      let new_size : ℤ := s.position_size + trade_shares
      ({ position_size := new_size, position_basis := total_cost / (new_size : ℚ) }, 0)
    else
      -- Selling from long position
      let shares_sold : ℤ := min s.position_size |trade_shares|
      let pnl : ℚ := (trade_price - s.position_basis) * (shares_sold : ℚ)
      let new_size : ℤ := s.position_size + trade_shares
      let new_basis : ℚ :=
        if new_size < 0 then trade_price
        else if new_size = 0 then 0
        else s.position_basis
      ({ position_size := new_size, position_basis := new_basis }, pnl)
  else
    -- Currently short
    if trade_shares < 0 then
      -- Adding to short position
      let total_proceeds : ℚ :=
        (|s.position_size| : ℚ) * s.position_basis + (|trade_shares| : ℚ) * trade_price
      let new_size : ℤ := s.position_size + trade_shares
      ({ position_size := new_size,
         position_basis := total_proceeds / ((|new_size| : ℤ) : ℚ) }, 0)
    else
      -- Covering short position
      let shares_covered : ℤ := min |s.position_size| trade_shares
      let pnl : ℚ := (s.position_basis - trade_price) * (shares_covered : ℚ)
      let new_size : ℤ := s.position_size + trade_shares
      let new_basis : ℚ :=
        if 0 < new_size then trade_price
        else if new_size = 0 then 0
        else s.position_basis
      ({ position_size := new_size, position_basis := new_basis }, pnl)

/-- The loop of process_ticker_trades as a fold carrying the position state:
each trade is resolved atomically against the pre-trade state, and one
LedgerRow is emitted per trade in order. -/
def process_ticker_trades_from (s : PosState) : List Trade → List LedgerRow
  | [] => []
  | t :: ts =>
    let step := process_trade s t.shares t.price
    { trade_date := t.trade_date, ticker := t.ticker, shares := t.shares,
      price := t.price,
      position_size_after_trade := step.1.position_size,
      position_basis_after_trade := step.1.position_basis,
      realized_pnl := step.2 } :: process_ticker_trades_from step.1 ts

/-- process_ticker_trades: process the trades of a single ticker starting from
the flat state (position size 0, basis 0). -/
def process_ticker_trades (trades : List Trade) : List LedgerRow :=
  process_ticker_trades_from { position_size := 0, position_basis := 0 } trades

/-- Sort key of the constructor (line 29): sort_values by (trade_date, ticker),
as a total preorder for the stable insertion sort. -/
def dateTickerLe (a b : Trade) : Prop :=
  a.trade_date < b.trade_date ∨ (a.trade_date = b.trade_date ∧ a.ticker ≤ b.ticker)

instance : DecidableRel dateTickerLe := fun a b => by
  unfold dateTickerLe; exact inferInstance

instance : IsTotal Trade dateTickerLe :=
  ⟨fun a b => by
    unfold dateTickerLe
    rcases lt_trichotomy a.trade_date b.trade_date with h | h | h
    · exact Or.inl (Or.inl h)
    · rcases le_total a.ticker b.ticker with ht | ht
      · exact Or.inl (Or.inr ⟨h, ht⟩)
      · exact Or.inr (Or.inr ⟨h.symm, ht⟩)
    · exact Or.inr (Or.inl h)⟩

instance : IsTrans Trade dateTickerLe :=
  ⟨fun a b c hab hbc => by
    unfold dateTickerLe at hab hbc ⊢
    rcases hab with h | ⟨h, ht⟩
    · rcases hbc with h2 | ⟨h2, _⟩
      · exact Or.inl (h.trans h2)
      · exact Or.inl (h2 ▸ h)
    · rcases hbc with h2 | ⟨h2, ht2⟩
      · exact Or.inl (h ▸ h2)
      · exact Or.inr ⟨h.trans h2, ht.trans ht2⟩⟩

/-- Sort key of calculate_pnl_for_multiple_tickers (line 155): sort_values by
(ticker, trade_date). -/
def tickerDateLe (a b : Trade) : Prop :=
  a.ticker < b.ticker ∨ (a.ticker = b.ticker ∧ a.trade_date ≤ b.trade_date)

instance : DecidableRel tickerDateLe := fun a b => by
  unfold tickerDateLe; exact inferInstance

instance : IsTotal Trade tickerDateLe :=
  ⟨fun a b => by
    unfold tickerDateLe
    rcases lt_trichotomy a.ticker b.ticker with h | h | h
    · exact Or.inl (Or.inl h)
    · rcases le_total a.trade_date b.trade_date with ht | ht
      · exact Or.inl (Or.inr ⟨h, ht⟩)
      · exact Or.inr (Or.inr ⟨h.symm, ht⟩)
    · exact Or.inr (Or.inl h)⟩

instance : IsTrans Trade tickerDateLe :=
  ⟨fun a b c hab hbc => by
    unfold tickerDateLe at hab hbc ⊢
    rcases hab with h | ⟨h, ht⟩
    · rcases hbc with h2 | ⟨h2, _⟩
      · exact Or.inl (h.trans h2)
      · exact Or.inl (h2 ▸ h)
    · rcases hbc with h2 | ⟨h2, ht2⟩
      · exact Or.inl (h ▸ h2)
      · exact Or.inr ⟨h.trans h2, ht.trans ht2⟩⟩

/-- Chronological order on trades of a single ticker. -/
def dateLe (a b : Trade) : Prop := a.trade_date ≤ b.trade_date

instance : DecidableRel dateLe := fun a b => by
  unfold dateLe; exact inferInstance

instance : IsTotal Trade dateLe := ⟨fun a b => le_total a.trade_date b.trade_date⟩

instance : IsTrans Trade dateLe := ⟨fun _ _ _ hab hbc => le_trans hab hbc⟩

/-- Filtering commutes with orderedInsert into a sorted list (the inserted
element either keeps or loses its place depending on the predicate). -/
theorem filter_orderedInsert {α : Type} (r : α → α → Prop) [DecidableRel r]
    [IsTrans α r] (p : α → Bool) (x : α) (l : List α) (hs : l.Sorted r) :
    (l.orderedInsert r x).filter p =
      if p x then (l.filter p).orderedInsert r x else l.filter p := by
  induction l with
  | nil =>
    by_cases hx : p x <;> simp [List.orderedInsert, hx]
  | cons y ys ih =>
    by_cases hxy : r x y
    · rw [List.orderedInsert_of_le r ys hxy]
      by_cases hx : p x
      · rw [if_pos hx]
        by_cases hy : p y
        · simp only [List.filter_cons, hx, hy, if_pos]
          rw [List.orderedInsert_of_le r _ hxy]
        · simp only [List.filter_cons, hx, hy]
          simp only [if_pos, Bool.false_eq_true, if_neg, not_false_iff]
          -- goal: x :: filter p ys = orderedInsert r x (filter p ys)
          cases hfy : ys.filter p with
          | nil => simp [List.orderedInsert]
          | cons z zs =>
            have hz : z ∈ ys.filter p := by rw [hfy]; exact List.mem_cons_self z zs
            have hzys : z ∈ ys := List.mem_of_mem_filter hz
            have hyz : r y z := List.rel_of_sorted_cons hs z hzys
            have hxz : r x z := Trans.trans hxy hyz
            rw [List.orderedInsert_of_le r zs hxz]
      · rw [if_neg hx]
        simp [List.filter_cons, hx]
    · simp only [List.orderedInsert, if_neg hxy]
      have ihs := ih hs.of_cons
      by_cases hx : p x
      · rw [if_pos hx] at ihs ⊢
        by_cases hy : p y
        · simp only [List.filter_cons, hy, if_pos, ihs]
          rw [List.orderedInsert, if_neg hxy]
        · simp only [List.filter_cons, hy, Bool.false_eq_true, if_neg, not_false_iff, ihs]
      · rw [if_neg hx] at ihs ⊢
        by_cases hy : p y <;> simp [List.filter_cons, hy, ihs]

/-- Filtering commutes with the stable insertion sort. -/
theorem filter_insertionSort {α : Type} (r : α → α → Prop) [DecidableRel r]
    [IsTotal α r] [IsTrans α r] (p : α → Bool) (l : List α) :
    (l.insertionSort r).filter p = (l.filter p).insertionSort r := by
  induction l with
  | nil => rfl
  | cons x xs ih =>
    simp only [List.insertionSort]
    rw [filter_orderedInsert r p x _ (List.sorted_insertionSort r xs)]
    by_cases hx : p x
    · simp only [List.filter_cons, hx, if_pos, List.insertionSort, ih]
    · simp only [List.filter_cons, hx, Bool.false_eq_true, if_neg, not_false_iff, ih]

/-- orderedInsert only looks at comparisons of the inserted element with list
elements, so relations that agree there give the same result. -/
theorem orderedInsert_congr {α : Type} (r₁ r₂ : α → α → Prop) [DecidableRel r₁]
    [DecidableRel r₂] (x : α) (l : List α) (h : ∀ b ∈ l, r₁ x b ↔ r₂ x b) :
    l.orderedInsert r₁ x = l.orderedInsert r₂ x := by
  induction l with
  | nil => rfl
  | cons y ys ih =>
    simp only [List.orderedInsert]
    by_cases h1 : r₁ x y
    · rw [if_pos h1, if_pos ((h y (List.mem_cons_self y ys)).1 h1)]
    · rw [if_neg h1, if_neg (fun h2 => h1 ((h y (List.mem_cons_self y ys)).2 h2)),
        ih (fun b hb => h b (List.mem_cons_of_mem y hb))]

/-- insertionSort only looks at comparisons between list elements, so
relations that agree on the list give the same result. -/
theorem insertionSort_congr {α : Type} (r₁ r₂ : α → α → Prop) [DecidableRel r₁]
    [DecidableRel r₂] (l : List α) (h : ∀ a ∈ l, ∀ b ∈ l, r₁ a b ↔ r₂ a b) :
    l.insertionSort r₁ = l.insertionSort r₂ := by
  induction l with
  | nil => rfl
  | cons x xs ih =>
    simp only [List.insertionSort]
    rw [ih (fun a ha b hb =>
      h a (List.mem_cons_of_mem x ha) b (List.mem_cons_of_mem x hb))]
    exact orderedInsert_congr r₁ r₂ x _ (fun b hb =>
      h x (List.mem_cons_self x xs) b
        (List.mem_cons_of_mem x ((List.mem_insertionSort r₂).1 hb)))

/-- Distinct keys of a column in order of first appearance
(pandas Series.unique). -/
def uniqueKeys (l : List String) : List String :=
  l.foldl (fun acc t => if t ∈ acc then acc else acc ++ [t]) []

theorem mem_uniqueKeys_foldl (l acc : List String) (a : String) :
    (a ∈ l.foldl (fun acc t => if t ∈ acc then acc else acc ++ [t]) acc) ↔
      a ∈ acc ∨ a ∈ l := by
  induction l generalizing acc with
  | nil => simp
  | cons x xs ih =>
    simp only [List.foldl_cons]
    by_cases hx : x ∈ acc
    · rw [if_pos hx, ih]
      constructor
      · rintro (h | h)
        · exact Or.inl h
        · exact Or.inr (List.mem_cons_of_mem x h)
      · rintro (h | h)
        · exact Or.inl h
        · rcases List.mem_cons.1 h with rfl | h
          · exact Or.inl hx
          · exact Or.inr h
    · rw [if_neg hx, ih]
      simp only [List.mem_append, List.mem_singleton, List.mem_cons]
      tauto

theorem mem_uniqueKeys (l : List String) (a : String) :
    a ∈ uniqueKeys l ↔ a ∈ l := by
  rw [uniqueKeys, mem_uniqueKeys_foldl]
  simp

theorem nodup_uniqueKeys_foldl (l acc : List String) (hacc : acc.Nodup) :
    (l.foldl (fun acc t => if t ∈ acc then acc else acc ++ [t]) acc).Nodup := by
  induction l generalizing acc with
  | nil => exact hacc
  | cons x xs ih =>
    simp only [List.foldl_cons]
    by_cases hx : x ∈ acc
    · rw [if_pos hx]; exact ih acc hacc
    · rw [if_neg hx]
      exact ih _ (by simp [List.nodup_append, hacc, hx])

theorem nodup_uniqueKeys (l : List String) : (uniqueKeys l).Nodup :=
  nodup_uniqueKeys_foldl l [] List.nodup_nil

/-- Group keys of a pandas groupby: distinct values, iterated in sorted
order. -/
def sorted_tickers (l : List String) : List String :=
  (uniqueKeys l).insertionSort (· ≤ ·)

theorem mem_sorted_tickers (l : List String) (a : String) :
    a ∈ sorted_tickers l ↔ a ∈ l := by
  rw [sorted_tickers, List.mem_insertionSort, mem_uniqueKeys]

theorem nodup_sorted_tickers (l : List String) : (sorted_tickers l).Nodup :=
  (List.perm_insertionSort _ _).symm.nodup (nodup_uniqueKeys l)

/-- calculate_pnl_for_multiple_tickers (lines 143-234): sort by
(ticker, trade_date), group by ticker (groups in sorted key order, rows of a
group in frame order), process each group through the ledger and concatenate.
With an empty frame there are no group frames and pd.concat raises
ValueError, modelled as an error value. -/
def calculate_pnl_for_multiple_tickers (df₀ : List Trade) :
    Except String (List LedgerRow) :=
  let df := df₀.insertionSort tickerDateLe
  let tickers := sorted_tickers (df.map (·.ticker))
  if tickers.isEmpty then .error "No objects to concatenate"
  else
    .ok (tickers.flatMap fun t =>
      process_ticker_trades (df.filter (fun r => r.ticker == t)))

/-- The constructor sort of the trades frame (line 29): stable sort by
(trade_date, ticker). -/
def init_sort_trades (trades : List Trade) : List Trade :=
  trades.insertionSort dateTickerLe

/-- calculate_trade_analytics (lines 37-42): the ledger applied to the
constructor-sorted trades frame. -/
def calculate_trade_analytics (trades : List Trade) :
    Except String (List LedgerRow) :=
  calculate_pnl_for_multiple_tickers (init_sort_trades trades)

/-- C1: the Position Ledger loop body performs exactly the five spec
transitions against the pre-trade state: open at flat; weighted-average add
to a long; realize (p - basis) times min(pos, |q|) on a long reduction with
basis p on a flip and basis 0 on a flat; proceeds-weighted add to a short;
realize (basis - p) times min(|pos|, q) on a short cover with the symmetric
basis reset.  Opening and position-increasing trades realize 0, and
process_ticker_trades is exactly the fold of this step from the flat state,
so each trade is resolved atomically against the pre-trade state. -/
theorem position_ledger_five_transitions (s : PosState) (q : ℤ) (p : ℚ) :
    (s.position_size = 0 →
      process_trade s q p = ({ position_size := q, position_basis := p }, 0)) ∧
    (0 < s.position_size → 0 < q →
      process_trade s q p =
        ({ position_size := s.position_size + q,
           position_basis :=
             ((s.position_size : ℚ) * s.position_basis + (q : ℚ) * p) /
               ((s.position_size : ℚ) + (q : ℚ)) }, 0)) ∧
    (0 < s.position_size → q < 0 →
      process_trade s q p =
        ({ position_size := s.position_size + q,
           position_basis :=
             if s.position_size + q < 0 then p
             else if s.position_size + q = 0 then 0
             else s.position_basis },
         (p - s.position_basis) * ((min s.position_size |q| : ℤ) : ℚ))) ∧
    (s.position_size < 0 → q < 0 →
      process_trade s q p =
        ({ position_size := s.position_size + q,
           position_basis :=
             ((|s.position_size| : ℚ) * s.position_basis + (|q| : ℚ) * p) /
               ((|s.position_size| : ℚ) + (|q| : ℚ)) }, 0)) ∧
    (s.position_size < 0 → 0 < q →
      process_trade s q p =
        ({ position_size := s.position_size + q,
           position_basis :=
             if 0 < s.position_size + q then p
             else if s.position_size + q = 0 then 0
             else s.position_basis },
         (s.position_basis - p) * ((min |s.position_size| q : ℤ) : ℚ))) ∧
    (∀ ts : List Trade,
      process_ticker_trades ts =
        process_ticker_trades_from { position_size := 0, position_basis := 0 } ts) := by
  refine ⟨?_, ?_, ?_, ?_, ?_, fun _ => rfl⟩
  · intro h0
    simp [process_trade, h0]
  · intro hpos hq
    simp only [process_trade, if_neg (by omega : ¬ s.position_size = 0), if_pos hpos,
      if_pos hq]
    have : ((s.position_size + q : ℤ) : ℚ) = (s.position_size : ℚ) + (q : ℚ) := by
      push_cast; ring
    rw [this]
  · intro hpos hq
    simp only [process_trade, if_neg (by omega : ¬ s.position_size = 0), if_pos hpos,
      if_neg (by omega : ¬ 0 < q)]
  · intro hneg hq
    simp only [process_trade, if_neg (by omega : ¬ s.position_size = 0),
      if_neg (by omega : ¬ 0 < s.position_size), if_pos hq]
    have habs : |s.position_size + q| = |s.position_size| + |q| := by
      rw [abs_of_neg hneg, abs_of_neg hq, abs_of_neg (by omega : s.position_size + q < 0)]
      ring
    rw [habs]
    have : ((|s.position_size| + |q| : ℤ) : ℚ) = (|s.position_size| : ℚ) + (|q| : ℚ) := by
      push_cast; ring
    rw [this]
  · intro hneg hq
    simp only [process_trade, if_neg (by omega : ¬ s.position_size = 0),
      if_neg (by omega : ¬ 0 < s.position_size), if_neg (by omega : ¬ q < 0)]

/-- Witness for C1: each of the five transitions evaluated at a concrete
pre-trade state and trade. -/
theorem position_ledger_five_transitions_witness :
    process_trade { position_size := 0, position_basis := 0 } 10 100 =
        ({ position_size := 10, position_basis := 100 }, 0) ∧
    process_trade { position_size := 10, position_basis := 100 } 5 120 =
        ({ position_size := 15, position_basis := 320 / 3 }, 0) ∧
    process_trade { position_size := 10, position_basis := 100 } (-4) 110 =
        ({ position_size := 6, position_basis := 100 }, 40) ∧
    process_trade { position_size := -10, position_basis := 100 } (-5) 90 =
        ({ position_size := -15, position_basis := 290 / 3 }, 0) ∧
    process_trade { position_size := -10, position_basis := 100 } 4 80 =
        ({ position_size := -6, position_basis := 100 }, 80) := by
  have h1 := (position_ledger_five_transitions
    { position_size := 0, position_basis := 0 } 10 100).1 rfl
  have h2 := (position_ledger_five_transitions
    { position_size := 10, position_basis := 100 } 5 120).2.1 (by decide) (by decide)
  have h3 := (position_ledger_five_transitions
    { position_size := 10, position_basis := 100 } (-4) 110).2.2.1 (by decide) (by decide)
  have h4 := (position_ledger_five_transitions
    { position_size := -10, position_basis := 100 } (-5) 90).2.2.2.1 (by decide) (by decide)
  have h5 := (position_ledger_five_transitions
    { position_size := -10, position_basis := 100 } 4 80).2.2.2.2.1 (by decide) (by decide)
  refine ⟨?_, ?_, ?_, ?_, ?_⟩
  · exact h1
  · rw [h2]; norm_num
  · rw [h3]; norm_num
  · rw [h4]; norm_num
  · rw [h5]; norm_num

/-- The ledger step keeps the invariant that a flat position has zero basis,
provided the trade has nonzero quantity. -/
theorem process_trade_flat_basis (s : PosState) (q : ℤ) (p : ℚ)
    (hq : q ≠ 0) :
    (process_trade s q p).1.position_size = 0 →
      (process_trade s q p).1.position_basis = 0 := by
  unfold process_trade
  by_cases h1 : s.position_size = 0
  · rw [if_pos h1]
    intro hz
    exact absurd hz hq
  · rw [if_neg h1]
    by_cases h2 : 0 < s.position_size
    · rw [if_pos h2]
      by_cases h3 : 0 < q
      · rw [if_pos h3]
        intro hz
        simp only at hz
        omega
      · rw [if_neg h3]
        intro hz
        simp only at hz ⊢
        rw [if_neg (by omega : ¬ s.position_size + q < 0), if_pos hz]
    · rw [if_neg h2]
      by_cases h4 : q < 0
      · rw [if_pos h4]
        intro hz
        simp only at hz
        omega
      · rw [if_neg h4]
        intro hz
        simp only at hz ⊢
        rw [if_neg (by omega : ¬ 0 < s.position_size + q), if_pos hz]

/-- The flat-basis invariant propagated through the whole fold of a single
ticker, for nonzero trade quantities. -/
theorem process_from_flat_basis (s : PosState) (ts : List Trade)
    (hq : ∀ t ∈ ts, t.shares ≠ 0) :
    ∀ r ∈ process_ticker_trades_from s ts,
      r.position_size_after_trade = 0 → r.position_basis_after_trade = 0 := by
  induction ts generalizing s with
  | nil => simp [process_ticker_trades_from]
  | cons t ts ih =>
    intro r hr
    simp only [process_ticker_trades_from, List.mem_cons] at hr
    have hstep := process_trade_flat_basis s t.shares t.price
      (hq t (List.mem_cons_self t ts))
    rcases hr with rfl | hr
    · exact hstep
    · exact ih _ (fun u hu => hq u (List.mem_cons_of_mem t hu)) r hr

/-- C7 counterexample: the claimed invariant fails as stated.  A trade with
quantity 0 at a flat position is processed by the opening branch, which sets
the basis to the trade price while the position size stays 0, so the trade
analytics output contains a row with position_size_after_trade = 0 and
position_basis_after_trade = 5. -/
theorem flat_zero_quantity_breaks_basis_invariant :
    ¬ (∀ (trades : List Trade) (rows : List LedgerRow),
        calculate_trade_analytics trades = .ok rows →
        ∀ r ∈ rows, r.position_size_after_trade = 0 →
          r.position_basis_after_trade = 0) := by
  intro hclaim
  have h := hclaim [{ trade_date := 1, ticker := "A", shares := 0, price := 5 }]
    [{ trade_date := 1, ticker := "A", shares := 0, price := 5,
       position_size_after_trade := 0, position_basis_after_trade := 5,
       realized_pnl := 0 }] rfl
    { trade_date := 1, ticker := "A", shares := 0, price := 5,
      position_size_after_trade := 0, position_basis_after_trade := 5,
      realized_pnl := 0 } (List.mem_cons_self _ _) rfl
  norm_num at h

/-- C7 amended: for input trade tables in which every trade has nonzero
quantity, every trade analytics row with position_size_after_trade = 0 has
position_basis_after_trade = 0 (basis resets when the position passes
through zero and stays zero until a position is reopened). -/
theorem flat_position_has_zero_basis (trades : List Trade)
    (hq : ∀ t ∈ trades, t.shares ≠ 0) (rows : List LedgerRow)
    (h : calculate_trade_analytics trades = .ok rows) :
    ∀ r ∈ rows, r.position_size_after_trade = 0 →
      r.position_basis_after_trade = 0 := by
  simp only [calculate_trade_analytics, calculate_pnl_for_multiple_tickers] at h
  split_ifs at h with he
  rw [Except.ok.injEq] at h
  intro r hr
  rw [← h] at hr
  rw [List.mem_flatMap] at hr
  obtain ⟨t, _, hrt⟩ := hr
  refine process_from_flat_basis _ _ ?_ r hrt
  intro u hu
  have hu2 : u ∈ trades := by
    have := List.mem_filter.1 hu
    exact (List.mem_insertionSort _).1 ((List.mem_insertionSort _).1 this.1)
  exact hq u hu2

/-- Witness for C7: a long opened with 2 shares and fully closed has basis 0
on the closing row. -/
theorem flat_position_has_zero_basis_witness :
    (∀ t ∈ ([⟨1, "A", 2, 10⟩, ⟨2, "A", -2, 12⟩] : List Trade), t.shares ≠ 0) ∧
    ({ trade_date := 2, ticker := "A", shares := -2, price := 12,
       position_size_after_trade := 0, position_basis_after_trade := 0,
       realized_pnl := 4 } : LedgerRow).position_basis_after_trade = 0 := by
  refine ⟨by decide, ?_⟩
  refine flat_position_has_zero_basis [⟨1, "A", 2, 10⟩, ⟨2, "A", -2, 12⟩] (by decide)
    [⟨1, "A", 2, 10, 2, 10, 0⟩, ⟨2, "A", -2, 12, 0, 0, 4⟩] ?_
    ⟨2, "A", -2, 12, 0, 0, 4⟩ (List.mem_cons_of_mem _ (List.mem_cons_self _ _)) rfl
  simp only [calculate_trade_analytics, init_sort_trades,
    calculate_pnl_for_multiple_tickers, sorted_tickers, uniqueKeys,
    process_ticker_trades, process_ticker_trades_from, process_trade,
    List.insertionSort, List.orderedInsert]
  norm_num [dateTickerLe, tickerDateLe, List.filter, process_ticker_trades_from,
    process_trade]

/-- The ledger copies the ticker column of its input group unchanged. -/
theorem process_from_map_ticker (s : PosState) (ts : List Trade) :
    (process_ticker_trades_from s ts).map (·.ticker) = ts.map (·.ticker) := by
  induction ts generalizing s with
  | nil => rfl
  | cons t ts ih =>
    simp only [process_ticker_trades_from, List.map_cons, ih]

/-- The ledger copies the trade_date column of its input group unchanged. -/
theorem process_from_map_date (s : PosState) (ts : List Trade) :
    (process_ticker_trades_from s ts).map (·.trade_date) = ts.map (·.trade_date) := by
  induction ts generalizing s with
  | nil => rfl
  | cons t ts ih =>
    simp only [process_ticker_trades_from, List.map_cons, ih]

/-- Every output row of the ledger takes its ticker from some input trade. -/
theorem ticker_of_mem_process (s : PosState) (ts : List Trade) (r : LedgerRow)
    (hr : r ∈ process_ticker_trades_from s ts) :
    ∃ tr ∈ ts, r.ticker = tr.ticker := by
  have hmem : r.ticker ∈ (process_ticker_trades_from s ts).map (·.ticker) :=
    List.mem_map_of_mem _ hr
  rw [process_from_map_ticker] at hmem
  obtain ⟨tr, htr, he⟩ := List.mem_map.1 hmem
  exact ⟨tr, htr, he.symm⟩

/-- A flatMap over distinct keys where at most the key t contributes. -/
theorem flatMap_eq_single {β : Type} (l : List String) (G : String → List β)
    (t : String) (hnd : l.Nodup) (hz : ∀ u ∈ l, u ≠ t → G u = []) :
    l.flatMap G = if t ∈ l then G t else [] := by
  induction l with
  | nil => simp
  | cons u us ih =>
    have hnd2 := hnd.of_cons
    rcases List.nodup_cons.1 hnd with ⟨hu, _⟩
    simp only [List.flatMap_cons]
    by_cases hut : u = t
    · subst hut
      have hrest : us.flatMap G = [] := by
        rw [List.flatMap_eq_nil_iff]
        intro v hv
        exact hz v (List.mem_cons_of_mem u hv) (fun he => hu (he ▸ hv))
      rw [hrest, List.append_nil, if_pos (List.mem_cons_self u us)]
    · rw [hz u (List.mem_cons_self u us) hut, List.nil_append,
        ih hnd2 (fun v hv => hz v (List.mem_cons_of_mem u hv))]
      by_cases hmem : t ∈ us
      · rw [if_pos hmem, if_pos (List.mem_cons_of_mem u hmem)]
      · rw [if_neg hmem, if_neg (by
          intro hc
          rcases List.mem_cons.1 hc with he | he
          · exact hut he.symm
          · exact hmem he)]

/-- On trades of one ticker the (ticker, trade_date) key collapses to the
date. -/
theorem tickerDateLe_iff_dateLe (a b : Trade) (h : a.ticker = b.ticker) :
    tickerDateLe a b ↔ dateLe a b := by
  unfold tickerDateLe dateLe
  rw [h]
  simp [lt_irrefl]

/-- On trades of one ticker the (trade_date, ticker) key collapses to the
date. -/
theorem dateTickerLe_iff_dateLe (a b : Trade) (h : a.ticker = b.ticker) :
    dateTickerLe a b ↔ dateLe a b := by
  unfold dateTickerLe dateLe
  rw [h]
  constructor
  · rintro (hlt | ⟨he, _⟩)
    · exact le_of_lt hlt
    · exact le_of_eq he
  · intro hle
    rcases lt_or_eq_of_le hle with hlt | he
    · exact Or.inl hlt
    · exact Or.inr ⟨he, le_refl _⟩

/-- The group of ticker t after the two pandas sorts equals the stable
chronological sort of the original input subsequence of ticker t. -/
theorem group_of_double_sort (trades : List Trade) (t : String) :
    (((trades.insertionSort dateTickerLe).insertionSort tickerDateLe).filter
        (fun r => r.ticker == t)) =
      (trades.filter (fun tr => tr.ticker == t)).insertionSort dateLe := by
  have hticker : ∀ (l : List Trade), ∀ a ∈ l.filter (fun r => r.ticker == t),
      a.ticker = t := by
    intro l a ha
    simpa using (List.mem_filter.1 ha).2
  rw [filter_insertionSort tickerDateLe _ _,
    filter_insertionSort dateTickerLe _ _]
  rw [insertionSort_congr dateTickerLe dateLe _ (fun a ha b hb =>
    dateTickerLe_iff_dateLe a b ((hticker trades a ha).trans
      (hticker trades b hb).symm))]
  rw [insertionSort_congr tickerDateLe dateLe _ (fun a ha b hb => by
    have ha2 := hticker trades a ((List.mem_insertionSort dateLe).1 ha)
    have hb2 := hticker trades b ((List.mem_insertionSort dateLe).1 hb)
    exact tickerDateLe_iff_dateLe a b (ha2.trans hb2.symm))]
  exact (List.sorted_insertionSort dateLe _).insertionSort_eq

/-- C8: the trade analytics pipeline processes each ticker independently:
the rows of ticker t in the output are exactly the ledger applied to the
input trades of ticker t sorted chronologically by the stable insertion
sort (so trades sharing a date stay in input order), and the output
preserves the per-ticker chronological order. -/
theorem per_ticker_stable_chronological_processing (trades : List Trade)
    (t : String) (rows : List LedgerRow)
    (h : calculate_trade_analytics trades = .ok rows) :
    rows.filter (fun r => r.ticker == t) =
      process_ticker_trades
        ((trades.filter (fun tr => tr.ticker == t)).insertionSort dateLe) ∧
    ((rows.filter (fun r => r.ticker == t)).map (·.trade_date)).Sorted (· ≤ ·) := by
  simp only [calculate_trade_analytics, calculate_pnl_for_multiple_tickers,
    init_sort_trades] at h
  split_ifs at h with he
  rw [Except.ok.injEq] at h
  subst h
  set df := (trades.insertionSort dateTickerLe).insertionSort tickerDateLe with hdf
  have hmain :
      ((sorted_tickers (df.map (·.ticker))).flatMap fun u =>
          process_ticker_trades (df.filter (fun r => r.ticker == u))).filter
        (fun r => r.ticker == t) =
      process_ticker_trades
        ((trades.filter (fun tr => tr.ticker == t)).insertionSort dateLe) := by
    rw [List.filter_flatMap]
    rw [flatMap_eq_single _ _ t (nodup_sorted_tickers _) ?hz]
    case hz =>
      intro u _ hut
      rw [List.filter_eq_nil_iff]
      intro r hr
      obtain ⟨tr, htr, hrt⟩ := ticker_of_mem_process _ _ r hr
      have : tr.ticker = u := by simpa using (List.mem_filter.1 htr).2
      simp [hrt, this, hut]
    by_cases hmem : t ∈ sorted_tickers (df.map (·.ticker))
    · rw [if_pos hmem]
      have hall : ∀ r ∈ process_ticker_trades
          (df.filter (fun r => r.ticker == t)), (r.ticker == t) = true := by
        intro r hr
        obtain ⟨tr, htr, hrt⟩ := ticker_of_mem_process _ _ r hr
        have : tr.ticker = t := by simpa using (List.mem_filter.1 htr).2
        simp [hrt, this]
      rw [List.filter_eq_self.2 hall, hdf, group_of_double_sort]
    · rw [if_neg hmem]
      have hnone : trades.filter (fun tr => tr.ticker == t) = [] := by
        rw [List.filter_eq_nil_iff]
        intro tr htr hc
        apply hmem
        rw [mem_sorted_tickers, List.mem_map]
        refine ⟨tr, ?_, by simpa using hc⟩
        exact (List.mem_insertionSort _).2 ((List.mem_insertionSort _).2 htr)
      rw [hnone]
      rfl
  refine ⟨hmain, ?_⟩
  rw [hmain, process_ticker_trades, process_from_map_date]
  have hsorted := List.sorted_insertionSort dateLe
    (trades.filter (fun tr => tr.ticker == t))
  exact hsorted.map _ (fun a b hab => hab)

/-- Witness for C8: trades given in reverse date order; the ticker A rows of
the output are the ledger run on the date-sorted ticker A trades. -/
theorem per_ticker_stable_chronological_processing_witness :
    (List.filter (fun r => r.ticker == "A")
        [⟨1, "A", 2, 10, 2, 10, 0⟩, ⟨2, "A", -1, 12, 1, 10, 2⟩] : List LedgerRow) =
      process_ticker_trades
        ((List.filter (fun tr => tr.ticker == "A")
            [⟨2, "A", -1, 12⟩, ⟨1, "A", 2, 10⟩]).insertionSort dateLe) := by
  refine (per_ticker_stable_chronological_processing
    [⟨2, "A", -1, 12⟩, ⟨1, "A", 2, 10⟩] "A"
    [⟨1, "A", 2, 10, 2, 10, 0⟩, ⟨2, "A", -1, 12, 1, 10, 2⟩] ?_).1
  simp only [calculate_trade_analytics, init_sort_trades,
    calculate_pnl_for_multiple_tickers, sorted_tickers, uniqueKeys,
    process_ticker_trades, process_ticker_trades_from, process_trade,
    List.insertionSort, List.orderedInsert]
  norm_num [dateTickerLe, tickerDateLe, List.filter, process_ticker_trades_from,
    process_trade]

/-- Maximum of a nonempty list (numpy max); 0 on the empty list, which the
code never hits. -/
def listMax : List ℚ → ℚ
  | [] => 0
  | x :: xs => xs.foldl max x

/-- Minimum of a nonempty list (numpy min); 0 on the empty list, which the
code never hits. -/
def listMin : List ℚ → ℚ
  | [] => 0
  | x :: xs => xs.foldl min x

/-- numpy argmax: index of the first occurrence of the maximum value. -/
def argmaxFirst (l : List ℚ) : ℕ := l.indexOf (listMax l)

/-- numpy argmin: index of the first occurrence of the minimum value. -/
def argminFirst (l : List ℚ) : ℕ := l.indexOf (listMin l)

/-- Helper for np.minimum.accumulate: running minimum continued from m. -/
def runningMinFrom (m : ℚ) : List ℚ → List ℚ
  | [] => []
  | x :: xs => (min m x) :: runningMinFrom (min m x) xs

/-- np.minimum.accumulate: entry i is the minimum of the first i+1 inputs. -/
def runningMin : List ℚ → List ℚ
  | [] => []
  | x :: xs => x :: runningMinFrom x xs

/-- The profits array of the long-only branch (lines 289-290):
prices minus the accumulated running minimum. -/
def profitsOf (prices : List ℚ) : List ℚ :=
  (prices.zip (runningMin prices)).map (fun pr => pr.1 - pr.2)

theorem foldl_max_init_le {α : Type} [LinearOrder α] (l : List α) (b : α) :
    b ≤ l.foldl max b := by
  induction l generalizing b with
  | nil => exact le_refl b
  | cons x xs ih => exact le_trans (le_max_left b x) (ih (max b x))

theorem le_foldl_max {α : Type} [LinearOrder α] (l : List α) (a : α)
    (ha : a ∈ l) : ∀ b, a ≤ l.foldl max b := by
  induction l with
  | nil => cases ha
  | cons x xs ih =>
    intro b
    rcases List.mem_cons.1 ha with rfl | ha2
    · exact le_trans (le_max_right b a) (foldl_max_init_le xs (max b a))
    · exact ih ha2 (max b x)

theorem foldl_max_mem {α : Type} [LinearOrder α] (l : List α) (b : α) :
    l.foldl max b = b ∨ l.foldl max b ∈ l := by
  induction l generalizing b with
  | nil => exact Or.inl rfl
  | cons x xs ih =>
    rcases ih (max b x) with h | h
    · rcases max_cases b x with ⟨he, _⟩ | ⟨he, _⟩
      · exact Or.inl (by rw [List.foldl_cons, h, he])
      · exact Or.inr (by rw [List.foldl_cons, h, he]; exact List.mem_cons_self x xs)
    · exact Or.inr (List.mem_cons_of_mem x h)

theorem foldl_min_le_init {α : Type} [LinearOrder α] (l : List α) (b : α) :
    l.foldl min b ≤ b := by
  induction l generalizing b with
  | nil => exact le_refl b
  | cons x xs ih => exact le_trans (ih (min b x)) (min_le_left b x)

theorem foldl_min_le {α : Type} [LinearOrder α] (l : List α) (a : α)
    (ha : a ∈ l) : ∀ b, l.foldl min b ≤ a := by
  induction l with
  | nil => cases ha
  | cons x xs ih =>
    intro b
    rcases List.mem_cons.1 ha with rfl | ha2
    · exact le_trans (foldl_min_le_init xs (min b a)) (min_le_right b a)
    · exact ih ha2 (min b x)

theorem foldl_min_mem {α : Type} [LinearOrder α] (l : List α) (b : α) :
    l.foldl min b = b ∨ l.foldl min b ∈ l := by
  induction l generalizing b with
  | nil => exact Or.inl rfl
  | cons x xs ih =>
    rcases ih (min b x) with h | h
    · rcases min_cases b x with ⟨he, _⟩ | ⟨he, _⟩
      · exact Or.inl (by rw [List.foldl_cons, h, he])
      · exact Or.inr (by rw [List.foldl_cons, h, he]; exact List.mem_cons_self x xs)
    · exact Or.inr (List.mem_cons_of_mem x h)

theorem listMax_mem (l : List ℚ) (h : l ≠ []) : listMax l ∈ l := by
  cases l with
  | nil => exact absurd rfl h
  | cons x xs =>
    rcases foldl_max_mem xs x with he | hm
    · rw [listMax, he]; exact List.mem_cons_self x xs
    · exact List.mem_cons_of_mem x hm

theorem le_listMax (l : List ℚ) (a : ℚ) (ha : a ∈ l) : a ≤ listMax l := by
  cases l with
  | nil => cases ha
  | cons x xs =>
    rcases List.mem_cons.1 ha with rfl | ha2
    · exact foldl_max_init_le xs a
    · exact le_foldl_max xs a ha2 x

theorem listMin_mem (l : List ℚ) (h : l ≠ []) : listMin l ∈ l := by
  cases l with
  | nil => exact absurd rfl h
  | cons x xs =>
    rcases foldl_min_mem xs x with he | hm
    · rw [listMin, he]; exact List.mem_cons_self x xs
    · exact List.mem_cons_of_mem x hm

theorem listMin_le (l : List ℚ) (a : ℚ) (ha : a ∈ l) : listMin l ≤ a := by
  cases l with
  | nil => cases ha
  | cons x xs =>
    rcases List.mem_cons.1 ha with rfl | ha2
    · exact foldl_min_le_init xs a
    · exact foldl_min_le xs a ha2 x

theorem getD_ne_of_lt_indexOf {α : Type} [DecidableEq α] (l : List α) (a : α)
    (d : α) (j : ℕ) (hj : j < l.indexOf a) : l.getD j d ≠ a := by
  induction l generalizing j with
  | nil => simp [List.indexOf] at hj
  | cons x xs ih =>
    by_cases hx : x = a
    · rw [hx, List.indexOf_cons_self] at hj
      omega
    · rw [List.indexOf_cons_ne _ hx] at hj
      cases j with
      | zero => simpa using hx
      | succ j => exact ih j (Nat.lt_of_succ_lt_succ hj)

theorem argmaxFirst_lt_length (l : List ℚ) (h : l ≠ []) :
    argmaxFirst l < l.length :=
  List.indexOf_lt_length.2 (listMax_mem l h)

theorem getD_argmaxFirst (l : List ℚ) (h : l ≠ []) :
    l.getD (argmaxFirst l) 0 = listMax l := by
  rw [List.getD_eq_getElem l 0 (argmaxFirst_lt_length l h)]
  exact List.getElem_indexOf (argmaxFirst_lt_length l h)

theorem getD_lt_listMax_of_lt_argmaxFirst (l : List ℚ) (j : ℕ)
    (hj : j < argmaxFirst l) (hlen : j < l.length) :
    l.getD j 0 < listMax l := by
  have hne := getD_ne_of_lt_indexOf l (listMax l) 0 j hj
  have hle : l.getD j 0 ≤ listMax l := by
    refine le_listMax l _ ?_
    rw [List.getD_eq_getElem l 0 hlen]
    exact List.getElem_mem hlen
  exact lt_of_le_of_ne hle hne

theorem argminFirst_lt_length (l : List ℚ) (h : l ≠ []) :
    argminFirst l < l.length :=
  List.indexOf_lt_length.2 (listMin_mem l h)

theorem getD_argminFirst (l : List ℚ) (h : l ≠ []) :
    l.getD (argminFirst l) 0 = listMin l := by
  rw [List.getD_eq_getElem l 0 (argminFirst_lt_length l h)]
  exact List.getElem_indexOf (argminFirst_lt_length l h)

theorem listMin_lt_getD_of_lt_argminFirst (l : List ℚ) (j : ℕ)
    (hj : j < argminFirst l) (hlen : j < l.length) :
    listMin l < l.getD j 0 := by
  have hne := getD_ne_of_lt_indexOf l (listMin l) 0 j hj
  have hle : listMin l ≤ l.getD j 0 := by
    refine listMin_le l _ ?_
    rw [List.getD_eq_getElem l 0 hlen]
    exact List.getElem_mem hlen
  exact lt_of_le_of_ne hle (fun he => hne he.symm)

theorem foldl_min_assoc {α : Type} [LinearOrder α] (l : List α) (a b : α) :
    l.foldl min (min a b) = min a (l.foldl min b) := by
  induction l generalizing b with
  | nil => rfl
  | cons c cs ih =>
    simp only [List.foldl_cons]
    rw [min_assoc, ih (min b c)]

theorem listMin_cons (x : ℚ) (t : List ℚ) (ht : t ≠ []) :
    listMin (x :: t) = min x (listMin t) := by
  cases t with
  | nil => exact absurd rfl ht
  | cons y ys =>
    show List.foldl min x (y :: ys) = min x (List.foldl min y ys)
    rw [List.foldl_cons]
    have : min x y = min x (min y y) := by rw [min_self]
    rw [this, foldl_min_assoc ys x (min y y), min_self]

theorem length_runningMinFrom (l : List ℚ) (m : ℚ) :
    (runningMinFrom m l).length = l.length := by
  induction l generalizing m with
  | nil => rfl
  | cons x xs ih => simp [runningMinFrom, ih]

theorem length_runningMin (l : List ℚ) : (runningMin l).length = l.length := by
  cases l with
  | nil => rfl
  | cons x xs => simp [runningMin, length_runningMinFrom]

theorem take_ne_nil_of_lt {α : Type} (l : List α) (i : ℕ) (hi : i < l.length) :
    l.take (i + 1) ≠ [] := by
  cases l with
  | nil => simp at hi
  | cons x xs => simp [List.take_cons]

theorem runningMinFrom_getD (l : List ℚ) (m : ℚ) (i : ℕ) (hi : i < l.length) :
    (runningMinFrom m l).getD i 0 = min m (listMin (l.take (i + 1))) := by
  induction l generalizing m i with
  | nil => simp at hi
  | cons x xs ih =>
    cases i with
    | zero =>
      simp only [runningMinFrom, List.getD_cons_zero, List.take_succ_cons,
        List.take_zero]
      rfl
    | succ i =>
      simp only [runningMinFrom, List.getD_cons_succ]
      have hi2 : i < xs.length := by simpa using hi
      rw [ih (min m x) i hi2, List.take_succ_cons,
        listMin_cons x _ (take_ne_nil_of_lt xs i hi2), min_assoc]

theorem runningMin_getD (l : List ℚ) (i : ℕ) (hi : i < l.length) :
    (runningMin l).getD i 0 = listMin (l.take (i + 1)) := by
  cases l with
  | nil => simp at hi
  | cons x xs =>
    cases i with
    | zero =>
      simp only [runningMin, List.getD_cons_zero, List.take_succ_cons,
        List.take_zero]
      rfl
    | succ i =>
      simp only [runningMin, List.getD_cons_succ]
      have hi2 : i < xs.length := by simpa using hi
      rw [runningMinFrom_getD xs x i hi2, List.take_succ_cons,
        listMin_cons x _ (take_ne_nil_of_lt xs i hi2)]

theorem length_profitsOf (prices : List ℚ) :
    (profitsOf prices).length = prices.length := by
  simp [profitsOf, length_runningMin]

theorem profitsOf_getD (prices : List ℚ) (j : ℕ) (hj : j < prices.length) :
    (profitsOf prices).getD j 0 =
      prices.getD j 0 - listMin (prices.take (j + 1)) := by
  have hjz : j < (prices.zip (runningMin prices)).length := by
    simp [length_runningMin, hj]
  have hjp : j < (profitsOf prices).length := by rw [length_profitsOf]; exact hj
  rw [List.getD_eq_getElem _ 0 hjp]
  simp only [profitsOf]
  rw [List.getElem_map]
  rw [List.getElem_zip]
  rw [← List.getD_eq_getElem prices 0 hj,
    ← List.getD_eq_getElem (runningMin prices) 0 (by rw [length_runningMin]; exact hj),
    runningMin_getD prices j hj]

theorem pair_profit_le_listMax_profits (prices : List ℚ) (i j : ℕ)
    (hij : i ≤ j) (hj : j < prices.length) :
    prices.getD j 0 - prices.getD i 0 ≤ listMax (profitsOf prices) := by
  have hi : i < prices.length := lt_of_le_of_lt hij hj
  have hmem : prices.getD i 0 ∈ prices.take (j + 1) := by
    have hthis : i < (prices.take (j + 1)).length := by
      rw [List.length_take]
      omega
    have h2 : (prices.take (j + 1)).get ⟨i, hthis⟩ = prices.getD i 0 := by
      rw [List.get_eq_getElem, List.getElem_take prices,
        ← List.getD_eq_getElem prices 0 hi]
    rw [← h2]
    exact List.get_mem _ _ _
  have h1 : listMin (prices.take (j + 1)) ≤ prices.getD i 0 :=
    listMin_le _ _ hmem
  have h2 : prices.getD j 0 - prices.getD i 0 ≤
      prices.getD j 0 - listMin (prices.take (j + 1)) := by linarith
  refine le_trans h2 ?_
  rw [← profitsOf_getD prices j hj]
  refine le_listMax _ _ ?_
  have hjp : j < (profitsOf prices).length := by rw [length_profitsOf]; exact hj
  rw [List.getD_eq_getElem _ 0 hjp]
  exact List.getElem_mem hjp

/-- Result dictionary of the max-profit finder: dates and prices are None for
the empty result. -/
structure ProfitResult where
  buy_date : Option ℤ
  sell_date : Option ℤ
  max_profit : ℚ
  buy_price : Option ℚ
  sell_price : Option ℚ
  deriving Repr, DecidableEq

/-- The empty result structure returned when no profit is possible
(lines 343-351). -/
def get_empty_profit_result : ProfitResult :=
  { buy_date := none, sell_date := none, max_profit := 0,
    buy_price := none, sell_price := none }

/-- The long-only branch of _calculate_max_profit_vectorized
(lines 286-307): profit at each index against the running minimum, first
argmax as the sell index, first argmin of the prefix as the buy index,
empty result if the best profit is not positive. -/
def long_only_branch (prices : List ℚ) (dates : List ℤ) : ProfitResult :=
  let profits := profitsOf prices
  let max_profit_idx := argmaxFirst profits
  let max_profit := profits.getD max_profit_idx 0
  if max_profit ≤ 0 then get_empty_profit_result
  else
    let buy_idx := argminFirst (prices.take (max_profit_idx + 1))
    let sell_idx := max_profit_idx
    { buy_date := some (dates.getD buy_idx 0),
      sell_date := some (dates.getD sell_idx 0),
      max_profit := max_profit,
      buy_price := some (prices.getD buy_idx 0),
      sell_price := some (prices.getD sell_idx 0) }

/-- Loop body of the short-sale branch (lines 317-327): for one candidate
sell index, the best later buy is the minimum of the strict suffix, and the
best triple (profit, sell, buy) is replaced only on strict improvement. -/
def short_sale_step (prices : List ℚ) (acc : ℚ × ℕ × ℕ) (sell_idx : ℕ) :
    ℚ × ℕ × ℕ :=
  let sell_price := prices.getD sell_idx 0
  let suffix := prices.drop (sell_idx + 1)
  let min_price_after_sell := listMin suffix
  let min_price_idx := sell_idx + 1 + argminFirst suffix
  let profit := sell_price - min_price_after_sell
  if acc.1 < profit then (profit, sell_idx, min_price_idx) else acc

/-- The short-sale branch of _calculate_max_profit_vectorized
(lines 309-338): scan sell indices 0..n-2 in ascending order starting from
(0, 0, 0); empty result if the best profit is not positive. -/
def short_sale_branch (prices : List ℚ) (dates : List ℤ) : ProfitResult :=
  let res := (List.range (prices.length - 1)).foldl (short_sale_step prices) (0, 0, 0)
  if res.1 ≤ 0 then get_empty_profit_result
  else
    { buy_date := some (dates.getD res.2.2 0),
      sell_date := some (dates.getD res.2.1 0),
      max_profit := res.1,
      buy_price := some (prices.getD res.2.2 0),
      sell_price := some (prices.getD res.2.1 0) }

/-- _calculate_max_profit_vectorized (lines 269-341): a series with fewer
than 2 points returns the empty result before the strategy name is ever
examined; then the two known strategies dispatch, and any other name raises
ValueError. -/
def calculate_max_profit_vectorized (prices_df : List PriceObs)
    (strategy : String) : Except String ProfitResult :=
  if prices_df.length < 2 then .ok get_empty_profit_result
  else
    let prices := prices_df.map (·.close_price)
    let dates := prices_df.map (·.trade_date)
    if strategy = "long_only" then .ok (long_only_branch prices dates)
    else if strategy = "short_sale" then .ok (short_sale_branch prices dates)
    else .error ("Unknown strategy: " ++ strategy ++
      ". Must be long_only or short_sale")

/-- Chronological order on price observations (sort_values by trade_date in
find_maximum_profit_dates, line 251). -/
def priceDateLe (a b : PriceObs) : Prop := a.trade_date ≤ b.trade_date

instance : DecidableRel priceDateLe := fun a b => by
  unfold priceDateLe; exact inferInstance

instance : IsTotal PriceObs priceDateLe :=
  ⟨fun a b => le_total a.trade_date b.trade_date⟩

instance : IsTrans PriceObs priceDateLe := ⟨fun _ _ _ hab hbc => le_trans hab hbc⟩

/-- Per-ticker result of find_maximum_profit_dates. -/
structure TickerMaxProfit where
  long_only : ProfitResult
  short_sale : ProfitResult
  deriving Repr, DecidableEq

/-- find_maximum_profit_dates (lines 237-267): iterate the distinct tickers
of the raw prices frame in order of first appearance, sort each ticker slice
of the raw observations by date, skip tickers with fewer than 2 raw
observations, and run both strategies.  The strategy names are the two
recognised literals, so the calls always succeed and the error default is
never used. -/
def find_maximum_profit_dates (prices_df : List PriceObs) :
    List (String × TickerMaxProfit) :=
  (uniqueKeys (prices_df.map (·.ticker))).filterMap (fun t =>
    let ticker_prices :=
      (prices_df.filter (fun o => o.ticker == t)).insertionSort priceDateLe
    if ticker_prices.length < 2 then none
    else some (t,
      { long_only := (calculate_max_profit_vectorized ticker_prices
          "long_only").toOption.getD get_empty_profit_result,
        short_sale := (calculate_max_profit_vectorized ticker_prices
          "short_sale").toOption.getD get_empty_profit_result }))

/-- A row of get_maximum_profit_summary. -/
structure SummaryRow where
  ticker : String
  strategy : String
  buy_date : Option ℤ
  sell_date : Option ℤ
  max_profit : ℚ
  buy_price : Option ℚ
  sell_price : Option ℚ
  profit_percentage : ℚ
  deriving Repr, DecidableEq

/-- Python truthiness guard of the percentage division: None and 0.0 are
falsy, so the percentage degrades to 0 instead of dividing. -/
def percentage_of (max_profit : ℚ) (reference : Option ℚ) : ℚ :=
  match reference with
  | none => 0
  | some rp => if rp = 0 then 0 else max_profit / rp * 100

/-- get_maximum_profit_summary (lines 353-394): one row per ticker and
strategy with strictly positive max_profit; the percentage reference is the
buy price for Long Only and the sell price for Short Sale. -/
def get_maximum_profit_summary (prices_df : List PriceObs) : List SummaryRow :=
  (find_maximum_profit_dates prices_df).flatMap (fun te =>
    (if 0 < te.2.long_only.max_profit then
      [{ ticker := te.1, strategy := "Long Only",
         buy_date := te.2.long_only.buy_date,
         sell_date := te.2.long_only.sell_date,
         max_profit := te.2.long_only.max_profit,
         buy_price := te.2.long_only.buy_price,
         sell_price := te.2.long_only.sell_price,
         profit_percentage :=
           percentage_of te.2.long_only.max_profit te.2.long_only.buy_price }]
    else []) ++
    (if 0 < te.2.short_sale.max_profit then
      [{ ticker := te.1, strategy := "Short Sale",
         buy_date := te.2.short_sale.buy_date,
         sell_date := te.2.short_sale.sell_date,
         max_profit := te.2.short_sale.max_profit,
         buy_price := te.2.short_sale.buy_price,
         sell_price := te.2.short_sale.sell_price,
         profit_percentage :=
           percentage_of te.2.short_sale.max_profit te.2.short_sale.sell_price }]
    else []))

/-- C9 counterexample: the fail-fast claim is false as stated, because the
length guard runs before the strategy dispatch: a series with fewer than 2
points and an unknown strategy name silently returns the empty result
instead of raising. -/
theorem unknown_strategy_not_always_error :
    ¬ (∀ (prices_df : List PriceObs) (strategy : String),
        strategy ≠ "long_only" → strategy ≠ "short_sale" →
        ∃ msg, calculate_max_profit_vectorized prices_df strategy = .error msg) := by
  intro hclaim
  obtain ⟨msg, hmsg⟩ := hclaim [{ trade_date := 1, ticker := "A", close_price := 100 }]
    "bogus" (by decide) (by decide)
  simp [calculate_max_profit_vectorized] at hmsg

/-- C9 amended: for every price series with at least 2 points, requesting a
strategy other than long_only and short_sale raises ValueError; it never
silently falls back. -/
theorem unknown_strategy_raises (prices_df : List PriceObs) (strategy : String)
    (hlen : 2 ≤ prices_df.length)
    (h1 : strategy ≠ "long_only") (h2 : strategy ≠ "short_sale") :
    calculate_max_profit_vectorized prices_df strategy =
      .error ("Unknown strategy: " ++ strategy ++
        ". Must be long_only or short_sale") := by
  unfold calculate_max_profit_vectorized
  rw [if_neg (by omega), if_neg h1, if_neg h2]

/-- Witness for C9: a two-point series with a misspelled strategy. -/
theorem unknown_strategy_raises_witness :
    calculate_max_profit_vectorized
        [{ trade_date := 1, ticker := "A", close_price := 100 },
         { trade_date := 2, ticker := "A", close_price := 101 }] "both" =
      .error ("Unknown strategy: both. Must be long_only or short_sale") :=
  unknown_strategy_raises
    [{ trade_date := 1, ticker := "A", close_price := 100 },
     { trade_date := 2, ticker := "A", close_price := 101 }] "both"
    (by decide) (by decide) (by decide)

/-- Close prices column of a single-ticker frame (line 283). -/
def pricesOf (series : List PriceObs) : List ℚ := series.map (·.close_price)

/-- Dates column of a single-ticker frame (line 284). -/
def datesOf (series : List PriceObs) : List ℤ := series.map (·.trade_date)

/-- Sell index chosen by the long-only branch (line 291). -/
def long_sell_idx (prices : List ℚ) : ℕ := argmaxFirst (profitsOf prices)

/-- Buy index chosen by the long-only branch (line 298). -/
def long_buy_idx (prices : List ℚ) : ℕ :=
  argminFirst (prices.take (long_sell_idx prices + 1))

/-- Profit of a candidate sell index in the short-sale scan (lines 319-323):
sell price minus the minimum of the strict suffix. -/
def short_profit_at (prices : List ℚ) (i : ℕ) : ℚ :=
  prices.getD i 0 - listMin (prices.drop (i + 1))

/-- Buy index the short-sale scan pairs with a sell index (line 321). -/
def short_buy_of (prices : List ℚ) (i : ℕ) : ℕ :=
  i + 1 + argminFirst (prices.drop (i + 1))

/-- Final accumulator of the short-sale scan (lines 313-327). -/
def short_loop_result (prices : List ℚ) : ℚ × ℕ × ℕ :=
  (List.range (prices.length - 1)).foldl (short_sale_step prices) (0, 0, 0)

theorem short_sale_step_eq (prices : List ℚ) (acc : ℚ × ℕ × ℕ) (k : ℕ) :
    short_sale_step prices acc k =
      if acc.1 < short_profit_at prices k then
        (short_profit_at prices k, k, short_buy_of prices k)
      else acc := rfl

/-- Invariant of the short-sale scan after processing sell indices 0..k-1:
the accumulator profit is nonnegative and dominates every scanned profit,
and when positive it records the first sell index achieving it together
with the argmin buy index of its suffix. -/
theorem short_loop_spec (prices : List ℚ) (k : ℕ) :
    0 ≤ ((List.range k).foldl (short_sale_step prices) (0, 0, 0)).1 ∧
    (∀ i < k, short_profit_at prices i ≤
      ((List.range k).foldl (short_sale_step prices) (0, 0, 0)).1) ∧
    (0 < ((List.range k).foldl (short_sale_step prices) (0, 0, 0)).1 →
      ((List.range k).foldl (short_sale_step prices) (0, 0, 0)).2.1 < k ∧
      short_profit_at prices
          ((List.range k).foldl (short_sale_step prices) (0, 0, 0)).2.1 =
        ((List.range k).foldl (short_sale_step prices) (0, 0, 0)).1 ∧
      ((List.range k).foldl (short_sale_step prices) (0, 0, 0)).2.2 =
        short_buy_of prices
          ((List.range k).foldl (short_sale_step prices) (0, 0, 0)).2.1 ∧
      ∀ i < ((List.range k).foldl (short_sale_step prices) (0, 0, 0)).2.1,
        short_profit_at prices i <
          ((List.range k).foldl (short_sale_step prices) (0, 0, 0)).1) := by
  induction k with
  | zero => refine ⟨le_refl 0, by omega, by norm_num⟩
  | succ k ih =>
    obtain ⟨ih0, ih1, ih2⟩ := ih
    rw [List.range_succ, List.foldl_append, List.foldl_cons, List.foldl_nil]
    set acc := (List.range k).foldl (short_sale_step prices) (0, 0, 0) with hacc
    rw [short_sale_step_eq]
    by_cases hc : acc.1 < short_profit_at prices k
    · rw [if_pos hc]
      refine ⟨le_of_lt (lt_of_le_of_lt ih0 hc), ?_, ?_⟩
      · intro i hi
        rcases Nat.lt_succ_iff_lt_or_eq.1 hi with hi2 | rfl
        · exact le_of_lt (lt_of_le_of_lt (ih1 i hi2) hc)
        · exact le_refl _
      · intro _
        refine ⟨Nat.lt_succ_self k, rfl, rfl, ?_⟩
        intro i hi
        exact lt_of_le_of_lt (ih1 i hi) hc
    · rw [if_neg hc]
      refine ⟨ih0, ?_, ?_⟩
      · intro i hi
        rcases Nat.lt_succ_iff_lt_or_eq.1 hi with hi2 | rfl
        · exact ih1 i hi2
        · exact le_of_not_lt hc
      · intro hpos
        obtain ⟨hb, he, hbuy, hfirst⟩ := ih2 hpos
        exact ⟨Nat.lt_succ_of_lt hb, he, hbuy, hfirst⟩

theorem long_sell_idx_def (p : List ℚ) :
    long_sell_idx p = argmaxFirst (profitsOf p) := rfl

theorem long_buy_idx_def (p : List ℚ) :
    long_buy_idx p = argminFirst (p.take (long_sell_idx p + 1)) := rfl

/-- C2: on a series with at least 2 points the long-only branch returns a
buy/sell pair with buy at or before sell that maximises sell price minus buy
price over all such pairs; the sell index is the earliest index whose profit
against the running minimum attains the maximum; the buy index is the
earliest index attaining the minimum price at or before the sell index; a
nonpositive best profit yields the empty result; and the spec example
[150, 155, 160, 145, 170] buys at 145 on day 4 and sells at 170 on day 5
for a profit of 25. -/
theorem long_only_max_profit_spec (series : List PriceObs)
    (hlen : 2 ≤ series.length) :
    (∀ i j, i ≤ j → j < series.length →
      (pricesOf series).getD j 0 - (pricesOf series).getD i 0 ≤
        (long_only_branch (pricesOf series) (datesOf series)).max_profit) ∧
    (listMax (profitsOf (pricesOf series)) ≤ 0 →
      long_only_branch (pricesOf series) (datesOf series) =
        get_empty_profit_result) ∧
    (0 < listMax (profitsOf (pricesOf series)) →
      long_buy_idx (pricesOf series) ≤ long_sell_idx (pricesOf series) ∧
      long_sell_idx (pricesOf series) < series.length ∧
      long_only_branch (pricesOf series) (datesOf series) =
        { buy_date := some ((datesOf series).getD (long_buy_idx (pricesOf series)) 0),
          sell_date := some ((datesOf series).getD (long_sell_idx (pricesOf series)) 0),
          max_profit := (pricesOf series).getD (long_sell_idx (pricesOf series)) 0 -
            (pricesOf series).getD (long_buy_idx (pricesOf series)) 0,
          buy_price := some ((pricesOf series).getD (long_buy_idx (pricesOf series)) 0),
          sell_price := some ((pricesOf series).getD (long_sell_idx (pricesOf series)) 0) } ∧
      (∀ j < long_sell_idx (pricesOf series),
        (profitsOf (pricesOf series)).getD j 0 <
          listMax (profitsOf (pricesOf series))) ∧
      ((pricesOf series).getD (long_buy_idx (pricesOf series)) 0 =
        listMin ((pricesOf series).take (long_sell_idx (pricesOf series) + 1))) ∧
      (∀ i < long_buy_idx (pricesOf series),
        (pricesOf series).getD (long_buy_idx (pricesOf series)) 0 <
          (pricesOf series).getD i 0)) ∧
    long_only_branch [150, 155, 160, 145, 170] [1, 2, 3, 4, 5] =
      { buy_date := some 4, sell_date := some 5, max_profit := 25,
        buy_price := some 145, sell_price := some 170 } := by
  have hPlen : (pricesOf series).length = series.length := List.length_map _ _
  have hproflen : (profitsOf (pricesOf series)).length = series.length := by
    rw [length_profitsOf, hPlen]
  have hne : profitsOf (pricesOf series) ≠ [] := by
    intro hnil
    rw [hnil] at hproflen
    simp only [List.length_nil] at hproflen
    omega
  have hM := getD_argmaxFirst _ hne
  have hM2 : (profitsOf (pricesOf series)).getD (long_sell_idx (pricesOf series)) 0 =
      listMax (profitsOf (pricesOf series)) := by
    rw [long_sell_idx_def]
    exact hM
  have hsell_lt : long_sell_idx (pricesOf series) < series.length := by
    rw [long_sell_idx_def, ← hproflen]
    exact argmaxFirst_lt_length _ hne
  have hbranch : long_only_branch (pricesOf series) (datesOf series) =
      if listMax (profitsOf (pricesOf series)) ≤ 0 then get_empty_profit_result
      else
        { buy_date := some ((datesOf series).getD (long_buy_idx (pricesOf series)) 0),
          sell_date := some ((datesOf series).getD (long_sell_idx (pricesOf series)) 0),
          max_profit := listMax (profitsOf (pricesOf series)),
          buy_price := some ((pricesOf series).getD (long_buy_idx (pricesOf series)) 0),
          sell_price := some ((pricesOf series).getD (long_sell_idx (pricesOf series)) 0) } := by
    simp only [long_only_branch]
    rw [← long_sell_idx_def, ← long_buy_idx_def, hM2]
  have htake_len : ((pricesOf series).take (long_sell_idx (pricesOf series) + 1)).length =
      long_sell_idx (pricesOf series) + 1 := by
    rw [List.length_take]
    omega
  have htake_ne : (pricesOf series).take (long_sell_idx (pricesOf series) + 1) ≠ [] := by
    intro hnil
    rw [hnil] at htake_len
    simp at htake_len
  have hbuy_lt_take : long_buy_idx (pricesOf series) <
      ((pricesOf series).take (long_sell_idx (pricesOf series) + 1)).length := by
    rw [long_buy_idx_def]
    exact argminFirst_lt_length _ htake_ne
  have hbuy_le_sell : long_buy_idx (pricesOf series) ≤ long_sell_idx (pricesOf series) := by
    rw [htake_len] at hbuy_lt_take
    omega
  have hbuy_lt_P : long_buy_idx (pricesOf series) < (pricesOf series).length := by
    rw [hPlen]
    omega
  have hPbuy : (pricesOf series).getD (long_buy_idx (pricesOf series)) 0 =
      listMin ((pricesOf series).take (long_sell_idx (pricesOf series) + 1)) := by
    have h1 := getD_argminFirst
      ((pricesOf series).take (long_sell_idx (pricesOf series) + 1)) htake_ne
    rw [← long_buy_idx_def] at h1
    rw [List.getD_eq_getElem _ 0 hbuy_lt_take, List.getElem_take (pricesOf series)] at h1
    rw [List.getD_eq_getElem _ 0 hbuy_lt_P]
    exact h1
  have hMval : listMax (profitsOf (pricesOf series)) =
      (pricesOf series).getD (long_sell_idx (pricesOf series)) 0 -
        (pricesOf series).getD (long_buy_idx (pricesOf series)) 0 := by
    rw [← hM, long_sell_idx_def, profitsOf_getD _ _ (by
      rw [hPlen, ← long_sell_idx_def]; exact hsell_lt), hPbuy, long_sell_idx_def]
  refine ⟨?_, ?_, ?_, ?_⟩
  · intro i j hij hj
    have hpair := pair_profit_le_listMax_profits (pricesOf series) i j hij
      (by rw [hPlen]; exact hj)
    by_cases hMle : listMax (profitsOf (pricesOf series)) ≤ 0
    · rw [hbranch, if_pos hMle]
      exact le_trans hpair hMle
    · rw [hbranch, if_neg hMle]
      exact hpair
  · intro hMle
    rw [hbranch, if_pos hMle]
  · intro hpos
    have hMle : ¬ listMax (profitsOf (pricesOf series)) ≤ 0 := not_le.2 hpos
    refine ⟨hbuy_le_sell, hsell_lt, ?_, ?_, hPbuy, ?_⟩
    · rw [hbranch, if_neg hMle, hMval]
    · intro j hj
      refine getD_lt_listMax_of_lt_argmaxFirst _ j ?_ ?_
      · rw [← long_sell_idx_def]
        exact hj
      · rw [hproflen]
        omega
    · intro i hi
      have hi_take : i < ((pricesOf series).take (long_sell_idx (pricesOf series) + 1)).length := by
        omega
      have hi_P : i < (pricesOf series).length := by
        rw [hPlen]
        omega
      have h2 := listMin_lt_getD_of_lt_argminFirst
        ((pricesOf series).take (long_sell_idx (pricesOf series) + 1)) i
        (by rw [← long_buy_idx_def]; exact hi) hi_take
      rw [List.getD_eq_getElem _ 0 hi_take, List.getElem_take (pricesOf series)] at h2
      rw [hPbuy, List.getD_eq_getElem _ 0 hi_P]
      exact h2
  · norm_num [long_only_branch, profitsOf, runningMin, runningMinFrom, listMax,
      argmaxFirst, argminFirst, listMin, min_def, max_def, List.indexOf_cons]

/-- Witness for C2: on the spec example series the day4/day5 pair profit is
bounded by the reported maximum profit. -/
theorem long_only_max_profit_spec_witness :
    (pricesOf [⟨1, "A", 150⟩, ⟨2, "A", 155⟩, ⟨3, "A", 160⟩, ⟨4, "A", 145⟩,
        ⟨5, "A", 170⟩]).getD 4 0 -
      (pricesOf [⟨1, "A", 150⟩, ⟨2, "A", 155⟩, ⟨3, "A", 160⟩, ⟨4, "A", 145⟩,
        ⟨5, "A", 170⟩]).getD 3 0 ≤
      (long_only_branch
        (pricesOf [⟨1, "A", 150⟩, ⟨2, "A", 155⟩, ⟨3, "A", 160⟩, ⟨4, "A", 145⟩,
          ⟨5, "A", 170⟩])
        (datesOf [⟨1, "A", 150⟩, ⟨2, "A", 155⟩, ⟨3, "A", 160⟩, ⟨4, "A", 145⟩,
          ⟨5, "A", 170⟩])).max_profit :=
  (long_only_max_profit_spec
    [⟨1, "A", 150⟩, ⟨2, "A", 155⟩, ⟨3, "A", 160⟩, ⟨4, "A", 145⟩, ⟨5, "A", 170⟩]
    (by norm_num)).1 3 4 (by norm_num) (by norm_num)

theorem short_loop_result_def (p : List ℚ) :
    short_loop_result p =
      (List.range (p.length - 1)).foldl (short_sale_step p) (0, 0, 0) := rfl

theorem short_profit_at_def (p : List ℚ) (i : ℕ) :
    short_profit_at p i = p.getD i 0 - listMin (p.drop (i + 1)) := rfl

theorem short_buy_of_def (p : List ℚ) (i : ℕ) :
    short_buy_of p i = i + 1 + argminFirst (p.drop (i + 1)) := rfl

/-- C2 helper reused for C3: an element later in the list is a member of the
strict suffix after an earlier index. -/
theorem getD_mem_drop (l : List ℚ) (i j : ℕ) (hij : i < j) (hj : j < l.length) :
    l.getD j 0 ∈ l.drop (i + 1) := by
  obtain ⟨m, rfl⟩ : ∃ m, j = i + 1 + m := ⟨j - (i + 1), by omega⟩
  have hm : m < (l.drop (i + 1)).length := by
    rw [List.length_drop]
    omega
  rw [List.getD_eq_getElem _ 0 hj, ← List.getElem_drop l]
  exact List.getElem_mem hm

/-- C3: on a series with at least 2 points the short-sale branch returns a
sell/buy pair with sell strictly before buy that maximises sell price minus
later buy price over all such pairs; the pair is replaced only on strict
improvement, so the first sell index achieving the global maximum wins ties
and its buy is the first minimum of its strict suffix; a nonpositive best
profit yields the empty result; and on strictly descending prices
[100, 90, 80] the long-only branch reports no opportunity while short-sale
sells day 1 at 100 and buys day 3 at 80 for a profit of 20. -/
theorem short_sale_max_profit_spec (series : List PriceObs)
    (hlen : 2 ≤ series.length) :
    (∀ i j, i < j → j < series.length →
      (pricesOf series).getD i 0 - (pricesOf series).getD j 0 ≤
        (short_sale_branch (pricesOf series) (datesOf series)).max_profit) ∧
    ((short_loop_result (pricesOf series)).1 ≤ 0 →
      short_sale_branch (pricesOf series) (datesOf series) =
        get_empty_profit_result) ∧
    (0 < (short_loop_result (pricesOf series)).1 →
      (short_loop_result (pricesOf series)).2.1 <
        (short_loop_result (pricesOf series)).2.2 ∧
      (short_loop_result (pricesOf series)).2.2 < series.length ∧
      short_sale_branch (pricesOf series) (datesOf series) =
        { buy_date := some ((datesOf series).getD
            (short_loop_result (pricesOf series)).2.2 0),
          sell_date := some ((datesOf series).getD
            (short_loop_result (pricesOf series)).2.1 0),
          max_profit := (pricesOf series).getD
              (short_loop_result (pricesOf series)).2.1 0 -
            (pricesOf series).getD (short_loop_result (pricesOf series)).2.2 0,
          buy_price := some ((pricesOf series).getD
            (short_loop_result (pricesOf series)).2.2 0),
          sell_price := some ((pricesOf series).getD
            (short_loop_result (pricesOf series)).2.1 0) } ∧
      ((pricesOf series).getD (short_loop_result (pricesOf series)).2.2 0 =
        listMin ((pricesOf series).drop
          ((short_loop_result (pricesOf series)).2.1 + 1))) ∧
      (∀ i < (short_loop_result (pricesOf series)).2.1,
        short_profit_at (pricesOf series) i <
          (short_loop_result (pricesOf series)).1) ∧
      (∀ j, (short_loop_result (pricesOf series)).2.1 < j →
        j < (short_loop_result (pricesOf series)).2.2 →
        (pricesOf series).getD (short_loop_result (pricesOf series)).2.2 0 <
          (pricesOf series).getD j 0)) ∧
    short_sale_branch [100, 90, 80] [1, 2, 3] =
      { buy_date := some 3, sell_date := some 1, max_profit := 20,
        buy_price := some 80, sell_price := some 100 } ∧
    long_only_branch [100, 90, 80] [1, 2, 3] = get_empty_profit_result := by
  have hPlen : (pricesOf series).length = series.length := List.length_map _ _
  have inv := short_loop_spec (pricesOf series) ((pricesOf series).length - 1)
  rw [← short_loop_result_def] at inv
  obtain ⟨inv0, inv1, inv2⟩ := inv
  have hbranch : short_sale_branch (pricesOf series) (datesOf series) =
      if (short_loop_result (pricesOf series)).1 ≤ 0 then get_empty_profit_result
      else
        { buy_date := some ((datesOf series).getD
            (short_loop_result (pricesOf series)).2.2 0),
          sell_date := some ((datesOf series).getD
            (short_loop_result (pricesOf series)).2.1 0),
          max_profit := (short_loop_result (pricesOf series)).1,
          buy_price := some ((pricesOf series).getD
            (short_loop_result (pricesOf series)).2.2 0),
          sell_price := some ((pricesOf series).getD
            (short_loop_result (pricesOf series)).2.1 0) } := by
    simp only [short_sale_branch]
    rw [← short_loop_result_def]
  refine ⟨?_, ?_, ?_, ?_, ?_⟩
  · intro i j hij hj
    have hjP : j < (pricesOf series).length := by rw [hPlen]; exact hj
    have hmem := getD_mem_drop (pricesOf series) i j hij hjP
    have hmin := listMin_le _ _ hmem
    have hfi : (pricesOf series).getD i 0 - (pricesOf series).getD j 0 ≤
        short_profit_at (pricesOf series) i := by
      rw [short_profit_at_def]
      linarith
    have hacc := inv1 i (by omega)
    by_cases hle : (short_loop_result (pricesOf series)).1 ≤ 0
    · rw [hbranch, if_pos hle]
      show _ ≤ (0 : ℚ)
      linarith
    · rw [hbranch, if_neg hle]
      exact le_trans hfi hacc
  · intro hle
    rw [hbranch, if_pos hle]
  · intro hpos
    obtain ⟨hsell_lt, hval, hbuy_eq, hfirst⟩ := inv2 hpos
    have hsell_lt2 : (short_loop_result (pricesOf series)).2.1 + 1 <
        (pricesOf series).length := by omega
    have hsuf_len : ((pricesOf series).drop
        ((short_loop_result (pricesOf series)).2.1 + 1)).length =
        (pricesOf series).length -
          ((short_loop_result (pricesOf series)).2.1 + 1) :=
      List.length_drop _ _
    have hsuf_ne : (pricesOf series).drop
        ((short_loop_result (pricesOf series)).2.1 + 1) ≠ [] := by
      intro hnil
      rw [hnil] at hsuf_len
      simp only [List.length_nil] at hsuf_len
      omega
    have hargmin := argminFirst_lt_length _ hsuf_ne
    have hbuy_lt : (short_loop_result (pricesOf series)).2.2 <
        (pricesOf series).length := by
      rw [hbuy_eq, short_buy_of_def]
      omega
    have hsell_lt_buy : (short_loop_result (pricesOf series)).2.1 <
        (short_loop_result (pricesOf series)).2.2 := by
      rw [hbuy_eq, short_buy_of_def]
      omega
    have hPbuy : (pricesOf series).getD
        (short_loop_result (pricesOf series)).2.2 0 =
        listMin ((pricesOf series).drop
          ((short_loop_result (pricesOf series)).2.1 + 1)) := by
      have h1 := getD_argminFirst _ hsuf_ne
      rw [List.getD_eq_getElem _ 0 hargmin, List.getElem_drop (pricesOf series)] at h1
      have hidx : (short_loop_result (pricesOf series)).2.2 =
          (short_loop_result (pricesOf series)).2.1 + 1 +
            argminFirst ((pricesOf series).drop
              ((short_loop_result (pricesOf series)).2.1 + 1)) :=
        hbuy_eq.trans (short_buy_of_def _ _)
      have hb2 : (short_loop_result (pricesOf series)).2.1 + 1 +
          argminFirst ((pricesOf series).drop
            ((short_loop_result (pricesOf series)).2.1 + 1)) <
          (pricesOf series).length := by omega
      rw [hidx, List.getD_eq_getElem _ 0 hb2]
      exact h1
    have hmax : (short_loop_result (pricesOf series)).1 =
        (pricesOf series).getD (short_loop_result (pricesOf series)).2.1 0 -
          (pricesOf series).getD (short_loop_result (pricesOf series)).2.2 0 := by
      rw [← hval, short_profit_at_def, hPbuy]
    refine ⟨hsell_lt_buy, by omega, ?_, hPbuy, hfirst, ?_⟩
    · rw [hbranch, if_neg (not_le.2 hpos), hmax]
    · intro j hj1 hj2
      obtain ⟨m, rfl⟩ : ∃ m, j = (short_loop_result (pricesOf series)).2.1 + 1 + m :=
        ⟨j - ((short_loop_result (pricesOf series)).2.1 + 1), by omega⟩
      have hm_lt : m < argminFirst ((pricesOf series).drop
          ((short_loop_result (pricesOf series)).2.1 + 1)) := by
        rw [hbuy_eq, short_buy_of_def] at hj2
        omega
      have hm_len : m < ((pricesOf series).drop
          ((short_loop_result (pricesOf series)).2.1 + 1)).length := by omega
      have h2 := listMin_lt_getD_of_lt_argminFirst _ m hm_lt hm_len
      rw [List.getD_eq_getElem _ 0 hm_len, List.getElem_drop (pricesOf series)] at h2
      rw [hPbuy, List.getD_eq_getElem _ 0 (by omega :
        (short_loop_result (pricesOf series)).2.1 + 1 + m <
          (pricesOf series).length)]
      exact h2
  · norm_num [short_sale_branch, short_sale_step, List.range_succ, listMin,
      argminFirst, min_def, List.indexOf_cons]
  · norm_num [long_only_branch, profitsOf, runningMin, runningMinFrom, listMax,
      argmaxFirst, listMin, min_def, max_def, List.indexOf_cons]

/-- Witness for C3: on the descending example series the day1/day3 pair
profit is bounded by the reported maximum profit. -/
theorem short_sale_max_profit_spec_witness :
    (pricesOf [⟨1, "A", 100⟩, ⟨2, "A", 90⟩, ⟨3, "A", 80⟩]).getD 0 0 -
      (pricesOf [⟨1, "A", 100⟩, ⟨2, "A", 90⟩, ⟨3, "A", 80⟩]).getD 2 0 ≤
      (short_sale_branch
        (pricesOf [⟨1, "A", 100⟩, ⟨2, "A", 90⟩, ⟨3, "A", 80⟩])
        (datesOf [⟨1, "A", 100⟩, ⟨2, "A", 90⟩, ⟨3, "A", 80⟩])).max_profit :=
  (short_sale_max_profit_spec [⟨1, "A", 100⟩, ⟨2, "A", 90⟩, ⟨3, "A", 80⟩]
    (by norm_num)).1 0 2 (by norm_num) (by norm_num)

/-- Looking a key up in a filterMap whose results carry their own key
recovers the value produced for that key. -/
theorem lookup_filterMap_keyed {β : Type} (keys : List String)
    (f : String → Option (String × β)) (hkey : ∀ u p, f u = some p → p.1 = u)
    (t : String) (entry : β)
    (h : (keys.filterMap f).lookup t = some entry) :
    f t = some (t, entry) := by
  induction keys with
  | nil => simp [List.lookup] at h
  | cons u us ih =>
    rw [List.filterMap_cons] at h
    cases hfu : f u with
    | none =>
      rw [hfu] at h
      exact ih h
    | some p =>
      obtain ⟨k, v⟩ := p
      have hk : k = u := hkey u (k, v) hfu
      subst hk
      rw [hfu] at h
      by_cases hkt : k = t
      · subst hkt
        have h2 : some v = some entry := by
          have hbeq : (k == k) = true := beq_self_eq_true k
          simpa [List.lookup, hbeq] using h
        rw [Option.some.injEq] at h2
        rw [hfu, h2]
      · have hbeq : (t == k) = false :=
          beq_eq_false_iff_ne.2 (fun he => hkt he.symm)
        have h2 : (List.filterMap f us).lookup t = some entry := by
          simpa [List.lookup, hbeq] using h
        exact ih h2

/-- A pair in an association list makes lookup of its key succeed. -/
theorem lookup_isSome_of_mem {β : Type} (l : List (String × β))
    (p : String × β) (hp : p ∈ l) : ∃ e, l.lookup p.1 = some e := by
  induction l with
  | nil => cases hp
  | cons q qs ih =>
    obtain ⟨k, v⟩ := q
    by_cases hkp : p.1 = k
    · refine ⟨v, ?_⟩
      have hbeq : (p.1 == k) = true := beq_iff_eq.2 hkp
      simp [List.lookup, hbeq]
    · have hbeq : (p.1 == k) = false := beq_eq_false_iff_ne.2 hkp
      have hp2 : p ∈ qs := by
        rcases List.mem_cons.1 hp with rfl | hp2
        · exact absurd rfl hkp
        · exact hp2
      obtain ⟨e, he⟩ := ih hp2
      refine ⟨e, ?_⟩
      simpa [List.lookup, hbeq] using he

/-- Every index into the sorted per-ticker slice names a raw observation of
that ticker in the input prices frame. -/
theorem obs_of_sorted_filter (prices_df : List PriceObs) (t : String) (i : ℕ)
    (hi : i < ((prices_df.filter (fun o => o.ticker == t)).insertionSort
      priceDateLe).length) :
    ∃ o ∈ prices_df, o.ticker = t ∧
      (datesOf ((prices_df.filter (fun o => o.ticker == t)).insertionSort
        priceDateLe)).getD i 0 = o.trade_date ∧
      (pricesOf ((prices_df.filter (fun o => o.ticker == t)).insertionSort
        priceDateLe)).getD i 0 = o.close_price := by
  have hmem : ((prices_df.filter (fun o => o.ticker == t)).insertionSort
      priceDateLe).get ⟨i, hi⟩ ∈
      (prices_df.filter (fun o => o.ticker == t)).insertionSort priceDateLe :=
    List.get_mem _ _ _
  rw [List.mem_insertionSort] at hmem
  have hfil := List.mem_filter.1 hmem
  refine ⟨_, hfil.1, by simpa using hfil.2, ?_, ?_⟩
  · rw [datesOf, List.getD_eq_getElem _ 0 (by simpa using hi), List.getElem_map]
    rfl
  · rw [pricesOf, List.getD_eq_getElem _ 0 (by simpa using hi), List.getElem_map]
    rfl

/-- C10: the maximum-profit finder works on the raw per-ticker price
observations: every ticker it reports has at least 2 raw observations
(counted before any resampling), and whenever a strategy reports a positive
profit, each of its entry and exit (date, price) pairs is the date and close
price of an actual raw observation of that ticker, so synthesized calendar
days can never appear; moreover every row of get_maximum_profit_summary
belongs to a ticker present in the finder result. -/
theorem max_profit_uses_raw_observations (prices_df : List PriceObs)
    (t : String) (entry : TickerMaxProfit)
    (h : (find_maximum_profit_dates prices_df).lookup t = some entry) :
    2 ≤ (prices_df.filter (fun o => o.ticker == t)).length ∧
    (0 < entry.long_only.max_profit →
      (∃ o ∈ prices_df, o.ticker = t ∧
        entry.long_only.buy_date = some o.trade_date ∧
        entry.long_only.buy_price = some o.close_price) ∧
      (∃ o ∈ prices_df, o.ticker = t ∧
        entry.long_only.sell_date = some o.trade_date ∧
        entry.long_only.sell_price = some o.close_price)) ∧
    (0 < entry.short_sale.max_profit →
      (∃ o ∈ prices_df, o.ticker = t ∧
        entry.short_sale.buy_date = some o.trade_date ∧
        entry.short_sale.buy_price = some o.close_price) ∧
      (∃ o ∈ prices_df, o.ticker = t ∧
        entry.short_sale.sell_date = some o.trade_date ∧
        entry.short_sale.sell_price = some o.close_price)) ∧
    (∀ row ∈ get_maximum_profit_summary prices_df,
      ∃ e, (find_maximum_profit_dates prices_df).lookup row.ticker = some e) := by
  have hf := lookup_filterMap_keyed _ _ ?hkey t entry h
  case hkey =>
    intro u p hp
    simp only at hp
    split_ifs at hp
    rw [Option.some.injEq] at hp
    rw [← hp]
  simp only at hf
  split_ifs at hf with hshort
  rw [Option.some.injEq, Prod.mk.injEq] at hf
  have hentry := hf.2
  have hlen2 : 2 ≤ ((prices_df.filter (fun o => o.ticker == t)).insertionSort
      priceDateLe).length := by omega
  have hlenfil : 2 ≤ (prices_df.filter (fun o => o.ticker == t)).length := by
    rw [← List.length_insertionSort priceDateLe
      (prices_df.filter (fun o => o.ticker == t))]
    exact hlen2
  have hcalc : calculate_max_profit_vectorized
      ((prices_df.filter (fun o => o.ticker == t)).insertionSort priceDateLe)
      "long_only" =
      .ok (long_only_branch
        (pricesOf ((prices_df.filter (fun o => o.ticker == t)).insertionSort
          priceDateLe))
        (datesOf ((prices_df.filter (fun o => o.ticker == t)).insertionSort
          priceDateLe))) := by
    unfold calculate_max_profit_vectorized
    rw [if_neg hshort, if_pos rfl]
    rfl
  have hcalcs : calculate_max_profit_vectorized
      ((prices_df.filter (fun o => o.ticker == t)).insertionSort priceDateLe)
      "short_sale" =
      .ok (short_sale_branch
        (pricesOf ((prices_df.filter (fun o => o.ticker == t)).insertionSort
          priceDateLe))
        (datesOf ((prices_df.filter (fun o => o.ticker == t)).insertionSort
          priceDateLe))) := by
    unfold calculate_max_profit_vectorized
    rw [if_neg hshort, if_neg (by decide : ¬ ("short_sale" : String) = "long_only"),
      if_pos rfl]
    rfl
  have hlong : entry.long_only =
      long_only_branch
        (pricesOf ((prices_df.filter (fun o => o.ticker == t)).insertionSort
          priceDateLe))
        (datesOf ((prices_df.filter (fun o => o.ticker == t)).insertionSort
          priceDateLe)) := by
    rw [← hentry]
    show (calculate_max_profit_vectorized
      ((prices_df.filter (fun o => o.ticker == t)).insertionSort priceDateLe)
      "long_only").toOption.getD get_empty_profit_result = _
    rw [hcalc]
    rfl
  have hshortv : entry.short_sale =
      short_sale_branch
        (pricesOf ((prices_df.filter (fun o => o.ticker == t)).insertionSort
          priceDateLe))
        (datesOf ((prices_df.filter (fun o => o.ticker == t)).insertionSort
          priceDateLe)) := by
    rw [← hentry]
    show (calculate_max_profit_vectorized
      ((prices_df.filter (fun o => o.ticker == t)).insertionSort priceDateLe)
      "short_sale").toOption.getD get_empty_profit_result = _
    rw [hcalcs]
    rfl
  refine ⟨hlenfil, ?_, ?_, ?_⟩
  · intro hpos
    obtain ⟨hopt, hemp, hposcase, _⟩ := long_only_max_profit_spec _ hlen2
    by_cases hMle : listMax (profitsOf (pricesOf
        ((prices_df.filter (fun o => o.ticker == t)).insertionSort
          priceDateLe))) ≤ 0
    · rw [hlong, hemp hMle] at hpos
      norm_num [get_empty_profit_result] at hpos
    · obtain ⟨hbs, hsl, hrec, _, _, _⟩ := hposcase (not_le.1 hMle)
      rw [hlong, hrec]
      constructor
      · obtain ⟨o, ho, hot, hod, hop⟩ := obs_of_sorted_filter prices_df t _
          (lt_of_le_of_lt hbs hsl)
        exact ⟨o, ho, hot, congrArg some hod, congrArg some hop⟩
      · obtain ⟨o, ho, hot, hod, hop⟩ := obs_of_sorted_filter prices_df t _ hsl
        exact ⟨o, ho, hot, congrArg some hod, congrArg some hop⟩
  · intro hpos
    obtain ⟨hopt, hemp, hposcase, _, _⟩ := short_sale_max_profit_spec _ hlen2
    by_cases hres : (short_loop_result (pricesOf
        ((prices_df.filter (fun o => o.ticker == t)).insertionSort
          priceDateLe))).1 ≤ 0
    · rw [hshortv, hemp hres] at hpos
      norm_num [get_empty_profit_result] at hpos
    · obtain ⟨hsb, hbl, hrec, _, _, _⟩ := hposcase (not_le.1 hres)
      rw [hshortv, hrec]
      constructor
      · obtain ⟨o, ho, hot, hod, hop⟩ := obs_of_sorted_filter prices_df t _ hbl
        exact ⟨o, ho, hot, congrArg some hod, congrArg some hop⟩
      · obtain ⟨o, ho, hot, hod, hop⟩ := obs_of_sorted_filter prices_df t _
          (lt_trans hsb hbl)
        exact ⟨o, ho, hot, congrArg some hod, congrArg some hop⟩
  · intro row hrow
    rw [get_maximum_profit_summary, List.mem_flatMap] at hrow
    obtain ⟨te, hte, hrow2⟩ := hrow
    have hticker : row.ticker = te.1 := by
      rcases List.mem_append.1 hrow2 with h2 | h2
      · split_ifs at h2
        · rw [List.mem_singleton] at h2
          rw [h2]
        · exact absurd h2 (List.not_mem_nil row)
      · split_ifs at h2
        · rw [List.mem_singleton] at h2
          rw [h2]
        · exact absurd h2 (List.not_mem_nil row)
    rw [hticker]
    exact lookup_isSome_of_mem _ te hte

/-- Witness for C10: a three-observation descending ticker is reported from
at least 2 raw observations. -/
theorem max_profit_uses_raw_observations_witness :
    2 ≤ (([⟨1, "A", 100⟩, ⟨2, "A", 90⟩, ⟨3, "A", 80⟩] : List PriceObs).filter
      (fun o => o.ticker == "A")).length := by
  refine (max_profit_uses_raw_observations
    [⟨1, "A", 100⟩, ⟨2, "A", 90⟩, ⟨3, "A", 80⟩] "A"
    { long_only := get_empty_profit_result,
      short_sale :=
        { buy_date := some 3, sell_date := some 1, max_profit := 20,
          buy_price := some 80, sell_price := some 100 } } ?_).1
  norm_num [find_maximum_profit_dates, uniqueKeys, calculate_max_profit_vectorized,
    long_only_branch, short_sale_branch, short_sale_step, List.lookup,
    List.filterMap, List.insertionSort, List.orderedInsert, priceDateLe,
    List.filter, profitsOf, runningMin, runningMinFrom, listMax, listMin,
    argmaxFirst, argminFirst, min_def, max_def, List.indexOf_cons,
    List.range_succ, get_empty_profit_result, pricesOf, datesOf]
  refine ⟨rfl, ?_⟩
  rw [if_neg (by decide : ¬ ("short_sale" : String) = "long_only")]
  rfl

/-- A row of the resampled daily price calendar.  The close column is a
float column, so it is NaN-able in principle (Option). -/
structure ResampledRow where
  trade_date : ℤ
  ticker : String
  close_price : Option ℚ
  deriving Repr, DecidableEq

/-- pd.date_range(start, end, freq=D): one entry per calendar day from lo to
hi inclusive. -/
def date_range (lo hi : ℤ) : List ℤ :=
  List.map (fun k : ℕ => lo + (k : ℤ)) (List.range (hi + 1 - lo).toNat)

/-- Forward fill of a float column, carrying the last non-null value. -/
def ffill_col : Option ℚ → List (Option ℚ) → List (Option ℚ)
  | _, [] => []
  | carry, none :: rest => carry :: ffill_col carry rest
  | _, some v :: rest => some v :: ffill_col (some v) rest

/-- Backward fill of a float column: forward fill of the reversed column. -/
def bfill_col (col : List (Option ℚ)) : List (Option ℚ) :=
  (ffill_col none col.reverse).reverse

/-- The reindex step of resample_ticker: the close price at an exact date if
that date is observed, else missing. -/
def lookup_price (g : List PriceObs) (d : ℤ) : Option ℚ :=
  (g.find? (fun o => o.trade_date == d)).map (·.close_price)

/-- resample_ticker (lines 50-64): reindex one ticker group over the daily
calendar from its minimum to its maximum observed date, then forward-fill
and back-fill the close column and restamp the ticker.  The function is
only ever applied to nonempty groups produced by groupby; the empty case
is unreachable. -/
def resample_ticker (t : String) (g : List PriceObs) : List ResampledRow :=
  match g.map (·.trade_date) with
  | [] => []
  | d :: ds =>
    let lo := ds.foldl min d
    let hi := ds.foldl max d
    let days := date_range lo hi
    let filled := bfill_col (ffill_col none (days.map (lookup_price g)))
    (days.zip filled).map (fun df =>
      { trade_date := df.1, ticker := t, close_price := df.2 })

/-- Minimum observed date of a group (index.min after set_index). -/
def group_min_date (g : List PriceObs) : ℤ :=
  match g.map (·.trade_date) with
  | [] => 0
  | d :: ds => ds.foldl min d

/-- Maximum observed date of a group (index.max after set_index). -/
def group_max_date (g : List PriceObs) : ℤ :=
  match g.map (·.trade_date) with
  | [] => 0
  | d :: ds => ds.foldl max d

/-- Sort key of the constructor for the prices frame (line 33): sort_values
by (trade_date, ticker). -/
def priceDateTickerLe (a b : PriceObs) : Prop :=
  a.trade_date < b.trade_date ∨
    (a.trade_date = b.trade_date ∧ a.ticker ≤ b.ticker)

instance : DecidableRel priceDateTickerLe := fun a b => by
  unfold priceDateTickerLe; exact inferInstance

instance : IsTotal PriceObs priceDateTickerLe :=
  ⟨fun a b => by
    unfold priceDateTickerLe
    rcases lt_trichotomy a.trade_date b.trade_date with h | h | h
    · exact Or.inl (Or.inl h)
    · rcases le_total a.ticker b.ticker with ht | ht
      · exact Or.inl (Or.inr ⟨h, ht⟩)
      · exact Or.inr (Or.inr ⟨h.symm, ht⟩)
    · exact Or.inr (Or.inl h)⟩

instance : IsTrans PriceObs priceDateTickerLe :=
  ⟨fun a b c hab hbc => by
    unfold priceDateTickerLe at hab hbc ⊢
    rcases hab with h | ⟨h, ht⟩
    · rcases hbc with h2 | ⟨h2, _⟩
      · exact Or.inl (h.trans h2)
      · exact Or.inl (h2 ▸ h)
    · rcases hbc with h2 | ⟨h2, ht2⟩
      · exact Or.inl (h ▸ h2)
      · exact Or.inr ⟨h.trans h2, ht.trans ht2⟩⟩

/-- The constructor sort of the prices frame (line 33). -/
def init_sort_prices (prices : List PriceObs) : List PriceObs :=
  prices.insertionSort priceDateTickerLe

/-- create_resampled_prices (lines 44-72): resample each ticker group of the
prices frame independently (groupby iterates sorted distinct tickers, each
group keeping frame order) and concatenate; pd.concat raises ValueError on
an empty prices frame. -/
def create_resampled_prices (prices_df : List PriceObs) :
    Except String (List ResampledRow) :=
  let tickers := sorted_tickers (prices_df.map (·.ticker))
  if tickers.isEmpty then .error "No objects to concatenate"
  else
    .ok (tickers.flatMap fun t =>
      resample_ticker t (prices_df.filter (fun o => o.ticker == t)))

/-- A merged row of pnl_history after the left join (line 84): analytics
columns become NaN-able floats. -/
structure MergedRow where
  trade_date : ℤ
  ticker : String
  close_price : Option ℚ
  shares : Option ℚ
  price : Option ℚ
  position_size_after_trade : Option ℚ
  position_basis_after_trade : Option ℚ
  realized_pnl : Option ℚ
  deriving Repr, DecidableEq

/-- One left-join output group (lines 84-86): a resampled row against the
matching trade analytics rows on (trade_date, ticker); no match keeps the
price row with null analytics, several matches duplicate it. -/
def merge_row (ta : List LedgerRow) (r : ResampledRow) : List MergedRow :=
  let ms := ta.filter (fun m => m.trade_date == r.trade_date && m.ticker == r.ticker)
  if ms.isEmpty then
    [{ trade_date := r.trade_date, ticker := r.ticker,
       close_price := r.close_price, shares := none, price := none,
       position_size_after_trade := none, position_basis_after_trade := none,
       realized_pnl := none }]
  else
    ms.map (fun m =>
      { trade_date := r.trade_date, ticker := r.ticker,
        close_price := r.close_price, shares := some (m.shares : ℚ),
        price := some m.price,
        position_size_after_trade := some (m.position_size_after_trade : ℚ),
        position_basis_after_trade := some m.position_basis_after_trade,
        realized_pnl := some m.realized_pnl })

/-- The left join of the resampled calendar against the trade analytics,
preserving left row order. -/
def merge_left (rp : List ResampledRow) (ta : List LedgerRow) : List MergedRow :=
  rp.flatMap (merge_row ta)

/-- NaN-aware cell operations: none is NaN. -/
def naOr (x y : Option ℚ) : Option ℚ :=
  match x with
  | some v => some v
  | none => y

def naAdd (x y : Option ℚ) : Option ℚ :=
  match x, y with
  | some a, some b => some (a + b)
  | _, _ => none

def naSub (x y : Option ℚ) : Option ℚ :=
  match x, y with
  | some a, some b => some (a - b)
  | _, _ => none

def naMul (x y : Option ℚ) : Option ℚ :=
  match x, y with
  | some a, some b => some (a * b)
  | _, _ => none

/-- merged_data.groupby(ticker)[cols].ffill() (lines 88-99): forward fill of
the three analytics columns within each ticker, rows staying in place.  The
carry maps each ticker to the last values seen for it. -/
def ffill_merged (carry : String → Option ℚ × Option ℚ × Option ℚ) :
    List MergedRow → List MergedRow
  | [] => []
  | r :: rest =>
    let c := carry r.ticker
    let size := naOr r.position_size_after_trade c.1
    let basis := naOr r.position_basis_after_trade c.2.1
    let realized := naOr r.realized_pnl c.2.2
    { r with position_size_after_trade := size,
             position_basis_after_trade := basis,
             realized_pnl := realized } ::
      ffill_merged
        (fun u => if u = r.ticker then (size, basis, realized) else carry u) rest

/-- A row of the emitted pnl_history frame.  close_price is not in the
coerced column list (lines 122-130), so it stays a NaN-able float; every
other numeric column has been filled with 0. -/
structure PnLHistoryRow where
  trade_date : ℤ
  ticker : String
  close_price : Option ℚ
  shares : ℚ
  trade_execution_price : ℚ
  position_size_after_trade : ℚ
  position_basis_after_trade : ℚ
  realized_pnl : ℚ
  unrealized_pnl : ℚ
  total_pnl : ℚ
  deriving Repr, DecidableEq

/-- The row-wise tail of pnl_history (lines 101-139): fillna(0) on realized,
unrealized = (close - basis) * size with NaN propagation, total = realized +
unrealized, coercion of the listed numeric columns (NaN to 0; over ℚ there
are no infinities), and the rename of price to trade_execution_price. -/
def finalize_row (m : MergedRow) : PnLHistoryRow :=
  let realized : ℚ := m.realized_pnl.getD 0
  let unrealized : Option ℚ :=
    naMul (naSub m.close_price m.position_basis_after_trade)
      m.position_size_after_trade
  let total : Option ℚ := naAdd (some realized) unrealized
  { trade_date := m.trade_date, ticker := m.ticker,
    close_price := m.close_price,
    shares := m.shares.getD 0,
    trade_execution_price := m.price.getD 0,
    position_size_after_trade := m.position_size_after_trade.getD 0,
    position_basis_after_trade := m.position_basis_after_trade.getD 0,
    realized_pnl := realized,
    unrealized_pnl := unrealized.getD 0,
    total_pnl := total.getD 0 }

/-- pnl_history (lines 74-141): trade analytics of the constructor-sorted
trades, resampled prices of the constructor-sorted prices, left join,
per-ticker forward fill, and the row-wise derivations. -/
def pnl_history (trades : List Trade) (prices : List PriceObs) :
    Except String (List PnLHistoryRow) :=
  match calculate_pnl_for_multiple_tickers (init_sort_trades trades) with
  | .error e => .error e
  | .ok ta =>
    match create_resampled_prices (init_sort_prices prices) with
    | .error e => .error e
    | .ok rp =>
      .ok ((ffill_merged (fun _ => (none, none, none))
        (merge_left rp ta)).map finalize_row)

theorem length_date_range (lo hi : ℤ) :
    (date_range lo hi).length = (hi + 1 - lo).toNat := by
  simp [date_range]

theorem date_range_getD (lo hi : ℤ) (i : ℕ)
    (h : i < (date_range lo hi).length) :
    (date_range lo hi).getD i 0 = lo + i := by
  rw [List.getD_eq_getElem _ _ h]
  unfold date_range
  rw [List.getElem_map, List.getElem_range]

theorem mem_date_range (lo hi d : ℤ) :
    d ∈ date_range lo hi ↔ lo ≤ d ∧ d ≤ hi := by
  unfold date_range
  simp only [List.mem_map, List.mem_range]
  constructor
  · rintro ⟨k, hk, rfl⟩
    constructor <;> omega
  · intro ⟨h1, h2⟩
    exact ⟨(d - lo).toNat, by omega, by omega⟩

theorem date_range_cons (lo hi : ℤ) (h : lo ≤ hi) :
    date_range lo hi = lo :: date_range (lo + 1) hi := by
  unfold date_range
  have h1 : (hi + 1 - lo).toNat = (hi + 1 - (lo + 1)).toNat + 1 := by omega
  rw [h1, List.range_succ_eq_map]
  simp only [List.map_cons, Nat.cast_zero, add_zero, List.map_map]
  refine congrArg (List.cons lo) (List.map_congr_left ?_)
  intro k _
  simp only [Function.comp_apply]
  push_cast
  ring

theorem date_range_snoc (lo d : ℤ) (h : lo ≤ d + 1) :
    date_range lo (d + 1) = date_range lo d ++ [d + 1] := by
  unfold date_range
  have h1 : (d + 1 + 1 - lo).toNat = (d + 1 - lo).toNat + 1 := by omega
  rw [h1, List.range_succ, List.map_append]
  simp only [List.map_cons, List.map_nil]
  have h2 : lo + ((d + 1 - lo).toNat : ℤ) = d + 1 := by omega
  rw [h2]

theorem date_range_self (d : ℤ) : date_range d d = [d] := by
  unfold date_range
  have h1 : (d + 1 - d) = 1 := by ring
  rw [h1, show (1 : ℤ).toNat = 1 from rfl, show List.range 1 = [0] from rfl]
  simp

theorem date_range_take (lo hi : ℤ) (i : ℕ)
    (h : i < (date_range lo hi).length) :
    (date_range lo hi).take (i + 1) = date_range lo (lo + i) := by
  rw [length_date_range] at h
  unfold date_range
  rw [← List.map_take, List.take_range]
  have h1 : min (i + 1) (hi + 1 - lo).toNat = i + 1 := by omega
  have h2 : (lo + i + 1 - lo).toNat = i + 1 := by omega
  rw [h1, h2]

theorem group_min_date_le (g : List PriceObs) (o : PriceObs) (ho : o ∈ g) :
    group_min_date g ≤ o.trade_date := by
  cases g with
  | nil => cases ho
  | cons x xs =>
    show (xs.map (·.trade_date)).foldl min x.trade_date ≤ o.trade_date
    rcases List.mem_cons.1 ho with rfl | ho2
    · exact foldl_min_le_init _ _
    · exact foldl_min_le _ _ (List.mem_map_of_mem _ ho2) _

theorem le_group_max_date (g : List PriceObs) (o : PriceObs) (ho : o ∈ g) :
    o.trade_date ≤ group_max_date g := by
  cases g with
  | nil => cases ho
  | cons x xs =>
    show o.trade_date ≤ (xs.map (·.trade_date)).foldl max x.trade_date
    rcases List.mem_cons.1 ho with rfl | ho2
    · exact foldl_max_init_le _ _
    · exact le_foldl_max _ _ (List.mem_map_of_mem _ ho2) _

theorem exists_obs_at_min (g : List PriceObs) (hg : g ≠ []) :
    ∃ o ∈ g, o.trade_date = group_min_date g := by
  cases g with
  | nil => exact absurd rfl hg
  | cons x xs =>
    have hmem : group_min_date (x :: xs) ∈ (x :: xs).map (·.trade_date) := by
      show (xs.map (·.trade_date)).foldl min x.trade_date ∈ _
      rcases foldl_min_mem (xs.map (·.trade_date)) x.trade_date with he | hm
      · rw [he]
        exact List.mem_cons_self _ _
      · exact List.mem_cons_of_mem _ hm
    obtain ⟨o, ho, hd⟩ := List.mem_map.1 hmem
    exact ⟨o, ho, hd⟩

theorem group_min_le_max (g : List PriceObs) (hg : g ≠ []) :
    group_min_date g ≤ group_max_date g := by
  obtain ⟨o, ho, hd⟩ := exists_obs_at_min g hg
  rw [← hd]
  exact le_group_max_date g o ho

theorem length_ffill_col (c : Option ℚ) (l : List (Option ℚ)) :
    (ffill_col c l).length = l.length := by
  induction l generalizing c with
  | nil => rfl
  | cons x xs ih => cases x <;> simp [ffill_col, ih]

theorem ffill_col_of_all_some (c : Option ℚ) (l : List (Option ℚ))
    (h : ∀ x ∈ l, x.isSome = true) : ffill_col c l = l := by
  induction l generalizing c with
  | nil => rfl
  | cons x xs ih =>
    cases x with
    | none =>
      have := h none (List.mem_cons_self _ _)
      simp at this
    | some v =>
      show some v :: ffill_col (some v) xs = _
      rw [ih (some v) (fun x hx => h x (List.mem_cons_of_mem _ hx))]

theorem ffill_col_all_some (c : Option ℚ) (hc : c.isSome = true)
    (l : List (Option ℚ)) : ∀ x ∈ ffill_col c l, x.isSome = true := by
  induction l generalizing c with
  | nil => intro x hx; cases hx
  | cons y ys ih =>
    intro x hx
    cases y with
    | none =>
      rcases List.mem_cons.1 hx with rfl | hx2
      · exact hc
      · exact ih c hc x hx2
    | some v =>
      rcases List.mem_cons.1 hx with rfl | hx2
      · rfl
      · exact ih (some v) rfl x hx2

theorem bfill_col_of_all_some (l : List (Option ℚ))
    (h : ∀ x ∈ l, x.isSome = true) : bfill_col l = l := by
  unfold bfill_col
  rw [ffill_col_of_all_some _ _ (fun x hx => h x (List.mem_reverse.1 hx)),
    List.reverse_reverse]

/-- Last non-null value of a column prefix, with fallback c. -/
def last_obs (c : Option ℚ) : List (Option ℚ) → Option ℚ
  | [] => c
  | x :: xs => last_obs (naOr x c) xs

theorem last_obs_append (c x : Option ℚ) (xs : List (Option ℚ)) :
    last_obs c (xs ++ [x]) = naOr x (last_obs c xs) := by
  induction xs generalizing c with
  | nil => rfl
  | cons y ys ih =>
    show last_obs (naOr y c) (ys ++ [x]) = _
    rw [ih (naOr y c)]
    rfl

theorem ffill_col_getD (c : Option ℚ) (l : List (Option ℚ)) (i : ℕ)
    (hi : i < l.length) :
    (ffill_col c l).getD i none = last_obs c (l.take (i + 1)) := by
  induction l generalizing c i with
  | nil => simp at hi
  | cons x xs ih =>
    cases i with
    | zero =>
      cases x with
      | none => rfl
      | some v => rfl
    | succ i =>
      have hi2 : i < xs.length := by simpa using hi
      cases x with
      | none =>
        show (ffill_col c xs).getD i none = last_obs c ((none :: xs).take (i + 2))
        rw [ih c i hi2, List.take_succ_cons]
        rfl
      | some v =>
        show (ffill_col (some v) xs).getD i none =
          last_obs c ((some v :: xs).take (i + 2))
        rw [ih (some v) i hi2, List.take_succ_cons]
        rfl

theorem lookup_price_isSome (g : List PriceObs) (d : ℤ)
    (h : ∃ o ∈ g, o.trade_date = d) : (lookup_price g d).isSome = true := by
  unfold lookup_price
  obtain ⟨o, ho, hd⟩ := h
  have hfind : (g.find? (fun o => o.trade_date == d)).isSome = true := by
    rw [List.find?_isSome]
    exact ⟨o, ho, by simp [hd]⟩
  cases hf : g.find? (fun o => o.trade_date == d) with
  | none => rw [hf] at hfind; simp at hfind
  | some o2 => rfl

theorem lookup_price_eq_none_iff (g : List PriceObs) (d : ℤ) :
    lookup_price g d = none ↔ ∀ o ∈ g, o.trade_date ≠ d := by
  unfold lookup_price
  rw [Option.map_eq_none', List.find?_eq_none]
  constructor
  · intro h o ho
    have := h o ho
    simpa using this
  · intro h o ho
    simpa using h o ho

theorem nodup_dates_inj (g : List PriceObs)
    (hnd : (g.map (·.trade_date)).Nodup) (a b : PriceObs) (ha : a ∈ g)
    (hb : b ∈ g) (hd : a.trade_date = b.trade_date) : a = b :=
  List.inj_on_of_nodup_map hnd ha hb hd

theorem lookup_price_spec (g : List PriceObs) (d : ℤ) (v : ℚ)
    (h : lookup_price g d = some v) :
    ∃ o ∈ g, o.trade_date = d ∧ o.close_price = v := by
  unfold lookup_price at h
  cases hf : g.find? (fun o => o.trade_date == d) with
  | none => rw [hf] at h; simp at h
  | some o =>
    rw [hf] at h
    simp only [Option.map_some'] at h
    rw [Option.some.injEq] at h
    have hmem := List.mem_of_find?_eq_some hf
    have hdate := List.find?_some hf
    simp only [beq_iff_eq] at hdate
    exact ⟨o, hmem, hdate, h⟩

theorem lookup_self (g : List PriceObs)
    (hnd : (g.map (·.trade_date)).Nodup) (o : PriceObs) (ho : o ∈ g) :
    lookup_price g o.trade_date = some o.close_price := by
  have hs := lookup_price_isSome g o.trade_date ⟨o, ho, rfl⟩
  cases hl : lookup_price g o.trade_date with
  | none => rw [hl] at hs; simp at hs
  | some v =>
    obtain ⟨o2, ho2, hd2, hc2⟩ := lookup_price_spec g o.trade_date v hl
    have : o2 = o := nodup_dates_inj g hnd o2 o ho2 ho hd2
    rw [← hc2, this]

/-- Accumulator of the most recent observation scan: keep the later date. -/
def pick_later (acc : Option PriceObs) (o : PriceObs) : Option PriceObs :=
  match acc with
  | none => some o
  | some b => if b.trade_date < o.trade_date then some o else acc

/-- The observation with the latest date at or before d, if any. -/
def latest_at_or_before (g : List PriceObs) (d : ℤ) : Option PriceObs :=
  (g.filter (fun o => decide (o.trade_date ≤ d))).foldl pick_later none

/-- Accumulator of the earliest following observation scan: keep the
earlier date. -/
def pick_earlier (acc : Option PriceObs) (o : PriceObs) : Option PriceObs :=
  match acc with
  | none => some o
  | some b => if o.trade_date < b.trade_date then some o else acc

/-- The observation with the earliest date strictly after d, if any. -/
def earliest_after (g : List PriceObs) (d : ℤ) : Option PriceObs :=
  (g.filter (fun o => decide (d < o.trade_date))).foldl pick_earlier none

theorem foldl_pick_later_some (l : List PriceObs) (b0 : PriceObs) :
    ∃ b, l.foldl pick_later (some b0) = some b ∧ (b = b0 ∨ b ∈ l) ∧
      b0.trade_date ≤ b.trade_date ∧ ∀ o ∈ l, o.trade_date ≤ b.trade_date := by
  induction l generalizing b0 with
  | nil => exact ⟨b0, rfl, Or.inl rfl, le_refl _, by simp⟩
  | cons x xs ih =>
    show ∃ b, xs.foldl pick_later (pick_later (some b0) x) = some b ∧ _
    by_cases hcmp : b0.trade_date < x.trade_date
    · rw [show pick_later (some b0) x = some x by simp [pick_later, hcmp]]
      obtain ⟨b, hb, hmem, hle, hall⟩ := ih x
      refine ⟨b, hb, ?_, le_trans (le_of_lt hcmp) hle, ?_⟩
      · rcases hmem with rfl | h
        · exact Or.inr (List.mem_cons_self _ _)
        · exact Or.inr (List.mem_cons_of_mem _ h)
      · intro o ho
        rcases List.mem_cons.1 ho with rfl | ho2
        · exact hle
        · exact hall o ho2
    · rw [show pick_later (some b0) x = some b0 by simp [pick_later, hcmp]]
      obtain ⟨b, hb, hmem, hle, hall⟩ := ih b0
      refine ⟨b, hb, ?_, hle, ?_⟩
      · rcases hmem with rfl | h
        · exact Or.inl rfl
        · exact Or.inr (List.mem_cons_of_mem _ h)
      · intro o ho
        rcases List.mem_cons.1 ho with rfl | ho2
        · exact le_trans (le_of_not_lt hcmp) hle
        · exact hall o ho2

theorem latest_at_or_before_spec (g : List PriceObs) (d : ℤ)
    (hne : g.filter (fun o => decide (o.trade_date ≤ d)) ≠ []) :
    ∃ b, latest_at_or_before g d = some b ∧ b ∈ g ∧ b.trade_date ≤ d ∧
      ∀ o ∈ g, o.trade_date ≤ d → o.trade_date ≤ b.trade_date := by
  unfold latest_at_or_before
  cases hfil : g.filter (fun o => decide (o.trade_date ≤ d)) with
  | nil => exact absurd hfil hne
  | cons x xs =>
    show ∃ b, xs.foldl pick_later (pick_later none x) = some b ∧ _
    rw [show pick_later none x = some x from rfl]
    obtain ⟨b, hb, hmem, hle, hall⟩ := foldl_pick_later_some xs x
    have hbfil : b ∈ g.filter (fun o => decide (o.trade_date ≤ d)) := by
      rw [hfil]
      rcases hmem with rfl | h
      · exact List.mem_cons_self _ _
      · exact List.mem_cons_of_mem _ h
    have hbg := List.mem_filter.1 hbfil
    refine ⟨b, hb, hbg.1, by simpa using hbg.2, ?_⟩
    intro o ho hod
    have hofil : o ∈ g.filter (fun o => decide (o.trade_date ≤ d)) :=
      List.mem_filter.2 ⟨ho, by simpa using hod⟩
    rw [hfil] at hofil
    rcases List.mem_cons.1 hofil with rfl | ho2
    · exact hle
    · exact hall o ho2

theorem latest_at_observed (g : List PriceObs)
    (hnd : (g.map (·.trade_date)).Nodup) (o : PriceObs) (ho : o ∈ g) (d : ℤ)
    (hd : o.trade_date = d) : latest_at_or_before g d = some o := by
  have hofil : o ∈ g.filter (fun o => decide (o.trade_date ≤ d)) :=
    List.mem_filter.2 ⟨ho, by simp [hd]⟩
  obtain ⟨b, hb, hbg, hbd, hmax⟩ := latest_at_or_before_spec g d
    (List.ne_nil_of_mem hofil)
  have h1 : o.trade_date ≤ b.trade_date := hmax o ho (le_of_eq hd)
  have h2 : b.trade_date = o.trade_date := le_antisymm (hd ▸ hbd) h1
  rw [hb, nodup_dates_inj g hnd b o hbg ho h2]

theorem latest_congr_unobserved (g : List PriceObs) (d : ℤ)
    (hnone : ∀ o ∈ g, o.trade_date ≠ d + 1) :
    latest_at_or_before g (d + 1) = latest_at_or_before g d := by
  unfold latest_at_or_before
  have : g.filter (fun o => decide (o.trade_date ≤ d + 1)) =
      g.filter (fun o => decide (o.trade_date ≤ d)) := by
    apply List.filter_congr
    intro o ho
    have := hnone o ho
    rw [decide_eq_decide]
    omega
  rw [this]

theorem length_bfill_col (l : List (Option ℚ)) :
    (bfill_col l).length = l.length := by
  unfold bfill_col
  rw [List.length_reverse, length_ffill_col, List.length_reverse]

theorem resample_ticker_eq (t : String) (g : List PriceObs) (hg : g ≠ []) :
    resample_ticker t g =
      ((date_range (group_min_date g) (group_max_date g)).zip
        (bfill_col (ffill_col none ((date_range (group_min_date g)
          (group_max_date g)).map (lookup_price g))))).map
        (fun df => { trade_date := df.1, ticker := t, close_price := df.2 }) := by
  cases g with
  | nil => exact absurd rfl hg
  | cons x xs => rfl

theorem resample_ticker_field (t : String) (g : List PriceObs) :
    ∀ r ∈ resample_ticker t g, r.ticker = t := by
  cases g with
  | nil => intro r hr; cases hr
  | cons x xs =>
    intro r hr
    rw [resample_ticker_eq t (x :: xs) (by simp)] at hr
    obtain ⟨df, _, rfl⟩ := List.mem_map.1 hr
    rfl

theorem resample_col_head_decomp (g : List PriceObs) (hg : g ≠ []) :
    ∃ v rest,
      (date_range (group_min_date g) (group_max_date g)).map (lookup_price g) =
        some v :: rest := by
  obtain ⟨o, ho, hod⟩ := exists_obs_at_min g hg
  have hle := group_min_le_max g hg
  rw [date_range_cons _ _ hle, List.map_cons]
  have hs : (lookup_price g (group_min_date g)).isSome = true :=
    lookup_price_isSome _ _ ⟨o, ho, hod⟩
  cases hl : lookup_price g (group_min_date g) with
  | none => rw [hl] at hs; simp at hs
  | some v => exact ⟨v, _, rfl⟩

theorem resample_ffilled_all_some (g : List PriceObs) (hg : g ≠ []) :
    ∀ x ∈ ffill_col none ((date_range (group_min_date g)
      (group_max_date g)).map (lookup_price g)), x.isSome = true := by
  obtain ⟨v, rest, hcol⟩ := resample_col_head_decomp g hg
  rw [hcol]
  intro x hx
  have hx2 : x ∈ some v :: ffill_col (some v) rest := hx
  rcases List.mem_cons.1 hx2 with rfl | hx3
  · rfl
  · exact ffill_col_all_some (some v) rfl rest x hx3

theorem resample_bfill_eq (g : List PriceObs) (hg : g ≠ []) :
    bfill_col (ffill_col none ((date_range (group_min_date g)
      (group_max_date g)).map (lookup_price g))) =
    ffill_col none ((date_range (group_min_date g)
      (group_max_date g)).map (lookup_price g)) :=
  bfill_col_of_all_some _ (resample_ffilled_all_some g hg)

theorem last_obs_spec (g : List PriceObs) (hg : g ≠ [])
    (hnd : (g.map (·.trade_date)).Nodup) (i : ℕ) :
    last_obs none ((date_range (group_min_date g)
      (group_min_date g + (i : ℤ))).map (lookup_price g)) =
      (latest_at_or_before g (group_min_date g + (i : ℤ))).map
        (·.close_price) := by
  induction i with
  | zero =>
    rw [show group_min_date g + ((0 : ℕ) : ℤ) = group_min_date g by push_cast; ring]
    rw [date_range_self, List.map_cons, List.map_nil]
    obtain ⟨o, ho, hod⟩ := exists_obs_at_min g hg
    have hl : lookup_price g (group_min_date g) = some o.close_price := by
      rw [← hod]
      exact lookup_self g hnd o ho
    rw [hl, latest_at_observed g hnd o ho _ hod]
    rfl
  | succ i ih =>
    have hcast : group_min_date g + ((i + 1 : ℕ) : ℤ) =
        (group_min_date g + (i : ℤ)) + 1 := by push_cast; ring
    rw [hcast, date_range_snoc _ _ (by
      have : (0 : ℤ) ≤ (i : ℤ) := Int.ofNat_nonneg i
      omega), List.map_append, List.map_cons, List.map_nil, last_obs_append]
    by_cases hobs : ∃ o ∈ g, o.trade_date = group_min_date g + (i : ℤ) + 1
    · obtain ⟨o, ho, hod⟩ := hobs
      rw [show lookup_price g (group_min_date g + (i : ℤ) + 1) =
          some o.close_price by rw [← hod]; exact lookup_self g hnd o ho]
      rw [latest_at_observed g hnd o ho _ hod]
      rfl
    · have hnone : lookup_price g (group_min_date g + (i : ℤ) + 1) = none :=
        (lookup_price_eq_none_iff _ _).2
          (fun o ho hd => hobs ⟨o, ho, hd⟩)
      rw [hnone, latest_congr_unobserved g _
        (fun o ho hd => hobs ⟨o, ho, hd⟩)]
      exact ih

theorem resample_close_spec (g : List PriceObs) (hg : g ≠ [])
    (hnd : (g.map (·.trade_date)).Nodup) (i : ℕ)
    (hi : i < (date_range (group_min_date g) (group_max_date g)).length) :
    (bfill_col (ffill_col none ((date_range (group_min_date g)
      (group_max_date g)).map (lookup_price g)))).getD i none =
      (latest_at_or_before g (group_min_date g + (i : ℤ))).map
        (·.close_price) := by
  rw [resample_bfill_eq g hg]
  rw [ffill_col_getD none _ i (by
    rw [List.length_map]
    exact hi)]
  rw [← List.map_take, date_range_take _ _ i hi]
  exact last_obs_spec g hg hnd i

/-- One groupby group: the ticker slice of a frame in frame order. -/
def ticker_group (prices : List PriceObs) (t : String) : List PriceObs :=
  prices.filter (fun o => o.ticker == t)

theorem resample_map_dates (t : String) (g : List PriceObs) (hg : g ≠ []) :
    (resample_ticker t g).map (·.trade_date) =
      date_range (group_min_date g) (group_max_date g) := by
  rw [resample_ticker_eq t g hg, List.map_map]
  have hlen : (date_range (group_min_date g) (group_max_date g)).length ≤
      (bfill_col (ffill_col none ((date_range (group_min_date g)
        (group_max_date g)).map (lookup_price g)))).length := by
    rw [length_bfill_col, length_ffill_col, List.length_map]
  rw [List.map_congr_left (fun df _ => rfl :
    ∀ df ∈ (date_range (group_min_date g) (group_max_date g)).zip
      (bfill_col (ffill_col none ((date_range (group_min_date g)
        (group_max_date g)).map (lookup_price g)))),
      ((·.trade_date) ∘ fun df : ℤ × Option ℚ =>
        ({ trade_date := df.1, ticker := t, close_price := df.2 } :
          ResampledRow)) df = Prod.fst df)]
  exact List.map_fst_zip _ _ hlen

theorem resample_singleton (t : String) (o : PriceObs) :
    resample_ticker t [o] =
      [{ trade_date := o.trade_date, ticker := t,
         close_price := some o.close_price }] := by
  rw [resample_ticker_eq t [o] (by simp)]
  have hmin : group_min_date [o] = o.trade_date := rfl
  have hmax : group_max_date [o] = o.trade_date := rfl
  rw [hmin, hmax, date_range_self]
  have hl : lookup_price [o] o.trade_date = some o.close_price :=
    lookup_self [o] (by simp) o (by simp)
  rw [List.map_cons, List.map_nil, hl]
  rfl

/-- C6: the Price Calendar Resampler, per ticker of the input: the rows of
ticker t in the output are exactly the resampled group of t (independence);
they carry exactly one row per calendar day from the minimum to the maximum
observed date of that ticker; each close is the most recent preceding
observed price, falling back to the nearest following observed price
(forward-fill, then back-fill); a single-observation ticker yields exactly
its one row; and resampling an already gapless daily series returns the
same series unchanged. -/
theorem create_resampled_prices_spec (prices : List PriceObs) (t : String)
    (hwf : (prices.map (fun o => (o.ticker, o.trade_date))).Nodup)
    (hmem : t ∈ prices.map (·.ticker)) (rrows : List ResampledRow)
    (h : create_resampled_prices (init_sort_prices prices) = .ok rrows) :
    rrows.filter (fun r => r.ticker == t) =
      resample_ticker t (ticker_group (init_sort_prices prices) t) ∧
    (rrows.filter (fun r => r.ticker == t)).map (·.trade_date) =
      date_range (group_min_date (ticker_group (init_sort_prices prices) t))
        (group_max_date (ticker_group (init_sort_prices prices) t)) ∧
    (∀ r ∈ rrows.filter (fun r => r.ticker == t),
      r.close_price =
        naOr ((latest_at_or_before (ticker_group (init_sort_prices prices) t)
            r.trade_date).map (·.close_price))
          ((earliest_after (ticker_group (init_sort_prices prices) t)
            r.trade_date).map (·.close_price))) ∧
    (∀ o : PriceObs, ticker_group (init_sort_prices prices) t = [o] →
      rrows.filter (fun r => r.ticker == t) =
        [{ trade_date := o.trade_date, ticker := t,
           close_price := some o.close_price }]) ∧
    ((ticker_group (init_sort_prices prices) t).map (·.trade_date) =
        date_range (group_min_date (ticker_group (init_sort_prices prices) t))
          (group_max_date (ticker_group (init_sort_prices prices) t)) →
      rrows.filter (fun r => r.ticker == t) =
        (ticker_group (init_sort_prices prices) t).map
          (fun o => { trade_date := o.trade_date, ticker := t,
                      close_price := some o.close_price })) := by
  obtain ⟨o0, ho0, ho0t⟩ := List.mem_map.1 hmem
  have ho0P : o0 ∈ init_sort_prices prices := (List.mem_insertionSort _).2 ho0
  have ho0g : o0 ∈ ticker_group (init_sort_prices prices) t :=
    List.mem_filter.2 ⟨ho0P, by simp [ho0t]⟩
  have hgne : ticker_group (init_sort_prices prices) t ≠ [] :=
    List.ne_nil_of_mem ho0g
  have hgt : ∀ o ∈ ticker_group (init_sort_prices prices) t, o.ticker = t := by
    intro o ho
    simpa using (List.mem_filter.1 ho).2
  have hndP : ((init_sort_prices prices).map
      (fun o => (o.ticker, o.trade_date))).Nodup :=
    ((List.perm_insertionSort priceDateTickerLe prices).map _).symm.nodup hwf
  have hndg : ((ticker_group (init_sort_prices prices) t).map
      (fun o => (o.ticker, o.trade_date))).Nodup :=
    ((List.filter_sublist _).map _).nodup hndP
  have hnd : ((ticker_group (init_sort_prices prices) t).map
      (·.trade_date)).Nodup := by
    have hmm : (ticker_group (init_sort_prices prices) t).map (·.trade_date) =
        ((ticker_group (init_sort_prices prices) t).map
          (fun o => (o.ticker, o.trade_date))).map Prod.snd := by
      rw [List.map_map]
      rfl
    rw [hmm]
    refine List.Nodup.map_on ?_ hndg
    intro x hx y hy hxy
    obtain ⟨ox, hox, rfl⟩ := List.mem_map.1 hx
    obtain ⟨oy, hoy, rfl⟩ := List.mem_map.1 hy
    simp only at hxy
    rw [Prod.mk.injEq, hgt ox hox, hgt oy hoy]
    exact ⟨rfl, hxy⟩
  have hmain : rrows.filter (fun r => r.ticker == t) =
      resample_ticker t (ticker_group (init_sort_prices prices) t) := by
    simp only [create_resampled_prices] at h
    split_ifs at h with he
    rw [Except.ok.injEq] at h
    subst h
    rw [List.filter_flatMap]
    rw [flatMap_eq_single _ _ t (nodup_sorted_tickers _) ?hz]
    case hz =>
      intro u _ hut
      rw [List.filter_eq_nil_iff]
      intro r hr
      have := resample_ticker_field u _ r hr
      simp [this, hut]
    have hmemt : t ∈ sorted_tickers ((init_sort_prices prices).map (·.ticker)) := by
      rw [mem_sorted_tickers]
      exact List.mem_map.2 ⟨o0, ho0P, ho0t⟩
    rw [if_pos hmemt]
    exact List.filter_eq_self.2 (fun r hr => by
      simp [resample_ticker_field t _ r hr])
  refine ⟨hmain, ?_, ?_, ?_, ?_⟩
  · rw [hmain]
    exact resample_map_dates t _ hgne
  · intro r hr
    rw [hmain, resample_ticker_eq t _ hgne] at hr
    obtain ⟨df, hdf, rfl⟩ := List.mem_map.1 hr
    obtain ⟨i, hi, hdfi⟩ := List.getElem_of_mem hdf
    have hidays : i < (date_range
        (group_min_date (ticker_group (init_sort_prices prices) t))
        (group_max_date (ticker_group (init_sort_prices prices) t))).length := by
      rw [List.length_zip] at hi
      omega
    have hifill : i < (bfill_col (ffill_col none ((date_range
        (group_min_date (ticker_group (init_sort_prices prices) t))
        (group_max_date (ticker_group (init_sort_prices prices) t))).map
          (lookup_price (ticker_group (init_sort_prices prices) t))))).length := by
      rw [List.length_zip] at hi
      omega
    rw [List.getElem_zip] at hdfi
    have hdate : df.1 = group_min_date (ticker_group (init_sort_prices prices) t) +
        (i : ℤ) := by
      rw [← hdfi]
      rw [← List.getD_eq_getElem _ 0 hidays]
      exact date_range_getD _ _ i hidays
    have hclose : df.2 = (latest_at_or_before
        (ticker_group (init_sort_prices prices) t)
        (group_min_date (ticker_group (init_sort_prices prices) t) + (i : ℤ))).map
          (·.close_price) := by
      rw [← hdfi]
      rw [← List.getD_eq_getElem _ none hifill]
      exact resample_close_spec _ hgne hnd i hidays
    show df.2 = _
    have hlat : ∃ b, latest_at_or_before
        (ticker_group (init_sort_prices prices) t)
        (group_min_date (ticker_group (init_sort_prices prices) t) + (i : ℤ)) =
        some b := by
      obtain ⟨om, hom, homd⟩ := exists_obs_at_min _ hgne
      have homfil : om ∈ (ticker_group (init_sort_prices prices) t).filter
          (fun o => decide (o.trade_date ≤
            group_min_date (ticker_group (init_sort_prices prices) t) + (i : ℤ))) := by
        refine List.mem_filter.2 ⟨hom, ?_⟩
        rw [decide_eq_true_iff]
        have : (0 : ℤ) ≤ (i : ℤ) := Int.ofNat_nonneg i
        omega
      obtain ⟨b, hb, _⟩ := latest_at_or_before_spec _ _
        (List.ne_nil_of_mem homfil)
      exact ⟨b, hb⟩
    obtain ⟨b, hb⟩ := hlat
    show df.2 = naOr ((latest_at_or_before _ df.1).map _) _
    rw [hdate, hclose, hb]
    rfl
  · intro o hsing
    rw [hmain, hsing, resample_singleton]
  · intro hgap
    rw [hmain, resample_ticker_eq t _ hgne, ← hgap]
    have hcol : ((ticker_group (init_sort_prices prices) t).map
        (·.trade_date)).map (lookup_price (ticker_group (init_sort_prices prices) t)) =
        (ticker_group (init_sort_prices prices) t).map
          (fun o => some o.close_price) := by
      rw [List.map_map]
      exact List.map_congr_left (fun o ho => lookup_self _ hnd o ho)
    rw [hcol]
    rw [ffill_col_of_all_some none _ (by
      intro x hx
      obtain ⟨o, _, rfl⟩ := List.mem_map.1 hx
      rfl)]
    rw [bfill_col_of_all_some _ (by
      intro x hx
      obtain ⟨o, _, rfl⟩ := List.mem_map.1 hx
      rfl)]
    rw [List.zip_map', List.map_map]
    rfl

/-- Witness for C6: two observations with a one-day gap resample to three
rows with the gap forward-filled. -/
theorem create_resampled_prices_spec_witness :
    (([⟨1, "A", some 10⟩, ⟨2, "A", some 10⟩, ⟨3, "A", some 12⟩] :
        List ResampledRow).filter (fun r => r.ticker == "A")) =
      resample_ticker "A"
        (ticker_group (init_sort_prices [⟨1, "A", 10⟩, ⟨3, "A", 12⟩]) "A") :=
  (create_resampled_prices_spec [⟨1, "A", 10⟩, ⟨3, "A", 12⟩] "A"
    (by decide) (by decide)
    [⟨1, "A", some 10⟩, ⟨2, "A", some 10⟩, ⟨3, "A", some 12⟩] rfl).1

/-- The three analytics columns travel together: after the merge and the
forward fill they are jointly present or jointly missing. -/
def JointTriple (x y z : Option ℚ) : Prop :=
  (x.isSome = true ∧ y.isSome = true ∧ z.isSome = true) ∨
    (x = none ∧ y = none ∧ z = none)

theorem naOr_of_isSome (x y : Option ℚ) (h : x.isSome = true) :
    naOr x y = x := by
  cases x with
  | none => simp at h
  | some v => rfl

theorem naOr_none_left (y : Option ℚ) : naOr none y = y := rfl

theorem merge_row_props (ta : List LedgerRow) (r : ResampledRow) :
    ∀ m ∈ merge_row ta r,
      JointTriple m.position_size_after_trade m.position_basis_after_trade
        m.realized_pnl ∧ m.close_price = r.close_price ∧ m.ticker = r.ticker := by
  intro m hm
  simp only [merge_row] at hm
  split_ifs at hm with hemp
  · rw [List.mem_singleton] at hm
    subst hm
    exact ⟨Or.inr ⟨rfl, rfl, rfl⟩, rfl, rfl⟩
  · obtain ⟨lr, _, rfl⟩ := List.mem_map.1 hm
    exact ⟨Or.inl ⟨rfl, rfl, rfl⟩, rfl, rfl⟩

theorem merge_row_no_match (ta : List LedgerRow) (r : ResampledRow)
    (hno : ∀ lr ∈ ta, lr.ticker ≠ r.ticker) :
    merge_row ta r =
      [{ trade_date := r.trade_date, ticker := r.ticker,
         close_price := r.close_price, shares := none, price := none,
         position_size_after_trade := none, position_basis_after_trade := none,
         realized_pnl := none }] := by
  unfold merge_row
  have hfil : ta.filter
      (fun m => m.trade_date == r.trade_date && m.ticker == r.ticker) = [] := by
    rw [List.filter_eq_nil_iff]
    intro lr hlr
    simp [hno lr hlr]
  rw [hfil]
  rfl

theorem merge_left_props (rp : List ResampledRow) (ta : List LedgerRow) :
    ∀ m ∈ merge_left rp ta,
      JointTriple m.position_size_after_trade m.position_basis_after_trade
        m.realized_pnl ∧ ∃ r ∈ rp, m.close_price = r.close_price := by
  intro m hm
  rw [merge_left, List.mem_flatMap] at hm
  obtain ⟨r, hr, hmr⟩ := hm
  have hp := merge_row_props ta r m hmr
  exact ⟨hp.1, r, hr, hp.2.1⟩

theorem ffill_merged_shape (rows : List MergedRow) :
    ∀ (carry : String → Option ℚ × Option ℚ × Option ℚ),
    ∀ r ∈ ffill_merged carry rows, ∃ r0 ∈ rows,
      r.trade_date = r0.trade_date ∧ r.ticker = r0.ticker ∧
      r.close_price = r0.close_price ∧ r.shares = r0.shares ∧
      r.price = r0.price := by
  induction rows with
  | nil => intro carry r hr; cases hr
  | cons x xs ih =>
    intro carry r hr
    rcases List.mem_cons.1 hr with rfl | hr2
    · exact ⟨x, List.mem_cons_self _ _, rfl, rfl, rfl, rfl, rfl⟩
    · obtain ⟨r0, hr0, hs⟩ := ih _ r hr2
      exact ⟨r0, List.mem_cons_of_mem _ hr0, hs⟩

theorem ffill_merged_joint (rows : List MergedRow) :
    ∀ (carry : String → Option ℚ × Option ℚ × Option ℚ),
    (∀ u, JointTriple (carry u).1 (carry u).2.1 (carry u).2.2) →
    (∀ r ∈ rows, JointTriple r.position_size_after_trade
      r.position_basis_after_trade r.realized_pnl) →
    ∀ r ∈ ffill_merged carry rows,
      JointTriple r.position_size_after_trade r.position_basis_after_trade
        r.realized_pnl := by
  induction rows with
  | nil => intro carry _ _ r hr; cases hr
  | cons x xs ih =>
    intro carry hcarry hrows r hr
    have hxj := hrows x (List.mem_cons_self _ _)
    have hcj := hcarry x.ticker
    have hnewj : JointTriple
        (naOr x.position_size_after_trade (carry x.ticker).1)
        (naOr x.position_basis_after_trade (carry x.ticker).2.1)
        (naOr x.realized_pnl (carry x.ticker).2.2) := by
      rcases hxj with ⟨h1, h2, h3⟩ | ⟨h1, h2, h3⟩
      · rw [naOr_of_isSome _ _ h1, naOr_of_isSome _ _ h2, naOr_of_isSome _ _ h3]
        exact Or.inl ⟨h1, h2, h3⟩
      · rw [h1, h2, h3, naOr_none_left, naOr_none_left, naOr_none_left]
        exact hcj
    rcases List.mem_cons.1 hr with rfl | hr2
    · exact hnewj
    · refine ih _ ?_ (fun rr hrr => hrows rr (List.mem_cons_of_mem _ hrr)) r hr2
      intro u
      by_cases hu : u = x.ticker
      · simp only [hu, if_pos]
        exact hnewj
      · simp only [if_neg hu]
        exact hcarry u

theorem ffill_merged_none_ticker (u : String) (rows : List MergedRow) :
    ∀ (carry : String → Option ℚ × Option ℚ × Option ℚ),
    carry u = (none, none, none) →
    (∀ r ∈ rows, r.ticker = u → r.position_size_after_trade = none ∧
      r.position_basis_after_trade = none ∧ r.realized_pnl = none ∧
      r.shares = none ∧ r.price = none) →
    ∀ r ∈ ffill_merged carry rows, r.ticker = u →
      r.position_size_after_trade = none ∧
      r.position_basis_after_trade = none ∧ r.realized_pnl = none ∧
      r.shares = none ∧ r.price = none := by
  induction rows with
  | nil => intro carry _ _ r hr; cases hr
  | cons x xs ih =>
    intro carry hc hrows r hr hru
    rcases List.mem_cons.1 hr with rfl | hr2
    · have hxu : x.ticker = u := hru
      have hx := hrows x (List.mem_cons_self _ _) hxu
      rw [show ({ x with
          position_size_after_trade :=
            naOr x.position_size_after_trade (carry x.ticker).1,
          position_basis_after_trade :=
            naOr x.position_basis_after_trade (carry x.ticker).2.1,
          realized_pnl := naOr x.realized_pnl (carry x.ticker).2.2 } :
          MergedRow).position_size_after_trade =
          naOr x.position_size_after_trade (carry x.ticker).1 from rfl]
      rw [hxu, hc, hx.1, hx.2.1, hx.2.2.1]
      exact ⟨rfl, rfl, rfl, hx.2.2.2.1, hx.2.2.2.2⟩
    · refine ih _ ?_
        (fun rr hrr hrru => hrows rr (List.mem_cons_of_mem _ hrr) hrru) r hr2 hru
      by_cases hxu : u = x.ticker
      · simp only [hxu, if_pos]
        have hx := hrows x (List.mem_cons_self _ _) hxu.symm
        rw [hx.1, hx.2.1, hx.2.2.1, ← hxu, hc]
        rfl
      · simp only [if_neg hxu]
        exact hc

theorem resample_close_isSome (t : String) (g : List PriceObs) (hg : g ≠ []) :
    ∀ r ∈ resample_ticker t g, r.close_price.isSome = true := by
  intro r hr
  rw [resample_ticker_eq t g hg] at hr
  obtain ⟨df, hdf, rfl⟩ := List.mem_map.1 hr
  have hsnd := (List.of_mem_zip hdf).2
  rw [resample_bfill_eq g hg] at hsnd
  exact resample_ffilled_all_some g hg _ hsnd

theorem create_resampled_close_isSome (prices_df : List PriceObs)
    (rp : List ResampledRow) (h : create_resampled_prices prices_df = .ok rp) :
    ∀ r ∈ rp, r.close_price.isSome = true := by
  simp only [create_resampled_prices] at h
  split_ifs at h with he
  rw [Except.ok.injEq] at h
  subst h
  intro r hr
  rw [List.mem_flatMap] at hr
  obtain ⟨t, ht, hrt⟩ := hr
  have hgne : prices_df.filter (fun o => o.ticker == t) ≠ [] := by
    rw [mem_sorted_tickers] at ht
    obtain ⟨o, ho, hot⟩ := List.mem_map.1 ht
    exact List.ne_nil_of_mem (List.mem_filter.2 ⟨ho, by simp [hot]⟩)
  exact resample_close_isSome t _ hgne r hrt

theorem finalize_row_invariants (m : MergedRow)
    (hj : JointTriple m.position_size_after_trade m.position_basis_after_trade
      m.realized_pnl) (c : ℚ) (hc : m.close_price = some c) :
    (finalize_row m).unrealized_pnl =
      (c - (finalize_row m).position_basis_after_trade) *
        (finalize_row m).position_size_after_trade ∧
    (finalize_row m).total_pnl =
      (finalize_row m).realized_pnl + (finalize_row m).unrealized_pnl := by
  rcases hj with ⟨h1, h2, h3⟩ | ⟨h1, h2, h3⟩
  · obtain ⟨s, hs⟩ := Option.isSome_iff_exists.1 h1
    obtain ⟨b, hb⟩ := Option.isSome_iff_exists.1 h2
    obtain ⟨re, hre⟩ := Option.isSome_iff_exists.1 h3
    constructor <;>
      simp [finalize_row, hc, hs, hb, hre, naSub, naMul, naAdd]
  · constructor <;>
      simp [finalize_row, hc, h1, h2, h3, naSub, naMul, naAdd]

/-- C5: every emitted pnl_history row satisfies
unrealized_pnl = (close_price - position_basis_after_trade) *
position_size_after_trade and total_pnl = realized_pnl + unrealized_pnl,
and its numeric columns are finite: the coerced columns are plain rationals
by construction and close_price is never missing. -/
theorem pnl_history_row_invariants (trades : List Trade)
    (prices : List PriceObs) (rows : List PnLHistoryRow)
    (h : pnl_history trades prices = .ok rows) :
    ∀ r ∈ rows, r.close_price.isSome = true ∧
      ∀ c : ℚ, r.close_price = some c →
        r.unrealized_pnl =
          (c - r.position_basis_after_trade) * r.position_size_after_trade ∧
        r.total_pnl = r.realized_pnl + r.unrealized_pnl := by
  unfold pnl_history at h
  cases hta : calculate_pnl_for_multiple_tickers (init_sort_trades trades) with
  | error e => rw [hta] at h; exact absurd h (by simp)
  | ok ta =>
    rw [hta] at h
    cases hrp : create_resampled_prices (init_sort_prices prices) with
    | error e => rw [hrp] at h; exact absurd h (by simp)
    | ok rp =>
      rw [hrp, Except.ok.injEq] at h
      subst h
      intro r hr
      obtain ⟨m, hm, rfl⟩ := List.mem_map.1 hr
      obtain ⟨m0, hm0, _, _, hcl, _, _⟩ := ffill_merged_shape _ _ m hm
      obtain ⟨r0, hr0, hcl0⟩ := (merge_left_props rp ta m0 hm0).2
      have hcsome : m.close_price.isSome = true := by
        rw [hcl, hcl0]
        exact create_resampled_close_isSome _ _ hrp r0 hr0
      have hjoint : JointTriple m.position_size_after_trade
          m.position_basis_after_trade m.realized_pnl :=
        ffill_merged_joint _ _ (fun _ => Or.inr ⟨rfl, rfl, rfl⟩)
          (fun mm hmm => (merge_left_props rp ta mm hmm).1) m hm
      exact ⟨hcsome, fun c hc => finalize_row_invariants m hjoint c hc⟩

/-- The single row that pnl_history emits for one trade (1 share at 10 on
day 1) against one close price (12 on day 1). -/
def demo_history_row : PnLHistoryRow :=
  { trade_date := 1, ticker := "A", close_price := some 12, shares := 1,
    trade_execution_price := 10, position_size_after_trade := 1,
    position_basis_after_trade := 10, realized_pnl := 0,
    unrealized_pnl := 2, total_pnl := 2 }

/-- Witness for C5: a one-trade, one-price frame; the emitted row satisfies
both equations at close 12. -/
theorem pnl_history_row_invariants_witness :
    demo_history_row.close_price.isSome = true ∧
    demo_history_row.unrealized_pnl =
      (12 - demo_history_row.position_basis_after_trade) *
        demo_history_row.position_size_after_trade := by
  have h := pnl_history_row_invariants [⟨1, "A", 1, 10⟩] [⟨1, "A", 12⟩]
    [demo_history_row] ?h demo_history_row (List.mem_cons_self _ _)
  case h =>
    show pnl_history [⟨1, "A", 1, 10⟩] [⟨1, "A", 12⟩] = _
    simp only [pnl_history, calculate_pnl_for_multiple_tickers,
      init_sort_trades, init_sort_prices, create_resampled_prices,
      sorted_tickers, uniqueKeys, process_ticker_trades,
      process_ticker_trades_from, process_trade, resample_ticker,
      merge_left, merge_row, ffill_merged, finalize_row,
      List.insertionSort, List.orderedInsert]
    norm_num [dateTickerLe, tickerDateLe, priceDateTickerLe, List.filter,
      process_ticker_trades_from, process_trade, date_range, lookup_price,
      ffill_col, bfill_col, List.flatMap, merge_row, ffill_merged,
      finalize_row, naOr, naSub, naMul, naAdd, group_min_date, group_max_date,
      demo_history_row]
  exact ⟨h.1, (h.2 12 rfl).1⟩

/-- C4 counterexample: pnl_history does not succeed on every input
combination.  With an entirely empty trades table the ledger groupby yields
no group frames and pd.concat raises ValueError, which pnl_history
propagates instead of returning zero-filled analytics. -/
theorem pnl_history_not_total :
    ¬ (∀ (trades : List Trade) (prices : List PriceObs),
        ∃ rows, pnl_history trades prices = .ok rows) := by
  intro hclaim
  obtain ⟨rows, hrows⟩ :=
    hclaim [] [{ trade_date := 1, ticker := "A", close_price := 10 }]
  rw [show pnl_history []
      [{ trade_date := 1, ticker := "A", close_price := 10 }] =
    .error "No objects to concatenate" from rfl] at hrows
  exact absurd hrows (by simp)

/-- C4 amended: for every nonempty trades table and nonempty prices table,
pnl_history succeeds, every emitted row has a present (finite) close price
and plain rational analytics columns, and a ticker that has prices but no
trades gets fully zero-filled analytics rather than an error. -/
theorem pnl_history_graceful (trades : List Trade) (prices : List PriceObs)
    (htr : trades ≠ []) (hpr : prices ≠ []) :
    ∃ rows, pnl_history trades prices = .ok rows ∧
      ∀ r ∈ rows, r.close_price.isSome = true ∧
        ((∀ tr ∈ trades, tr.ticker ≠ r.ticker) →
          r.shares = 0 ∧ r.trade_execution_price = 0 ∧
          r.position_size_after_trade = 0 ∧
          r.position_basis_after_trade = 0 ∧ r.realized_pnl = 0 ∧
          r.unrealized_pnl = 0 ∧ r.total_pnl = 0) := by
  have hta : ∃ ta, calculate_pnl_for_multiple_tickers (init_sort_trades trades) =
      .ok ta := by
    simp only [calculate_pnl_for_multiple_tickers]
    rw [if_neg ?hc]
    case hc =>
      intro hcontra
      rw [List.isEmpty_iff] at hcontra
      cases trades with
      | nil => exact htr rfl
      | cons x xs =>
        have hmm : x.ticker ∈ sorted_tickers
            (((init_sort_trades (x :: xs)).insertionSort tickerDateLe).map
              (·.ticker)) := by
          rw [mem_sorted_tickers]
          exact List.mem_map.2 ⟨x, (List.mem_insertionSort _).2
            ((List.mem_insertionSort _).2 (List.mem_cons_self _ _)), rfl⟩
        rw [hcontra] at hmm
        cases hmm
    exact ⟨_, rfl⟩
  have hrp : ∃ rp, create_resampled_prices (init_sort_prices prices) =
      .ok rp := by
    simp only [create_resampled_prices]
    rw [if_neg ?hc2]
    case hc2 =>
      intro hcontra
      rw [List.isEmpty_iff] at hcontra
      cases prices with
      | nil => exact hpr rfl
      | cons x xs =>
        have hmm : x.ticker ∈ sorted_tickers
            ((init_sort_prices (x :: xs)).map (·.ticker)) := by
          rw [mem_sorted_tickers]
          exact List.mem_map.2 ⟨x,
            (List.mem_insertionSort _).2 (List.mem_cons_self _ _), rfl⟩
        rw [hcontra] at hmm
        cases hmm
    exact ⟨_, rfl⟩
  obtain ⟨ta, hta⟩ := hta
  obtain ⟨rp, hrp⟩ := hrp
  refine ⟨(ffill_merged (fun _ => (none, none, none))
    (merge_left rp ta)).map finalize_row, ?_, ?_⟩
  · unfold pnl_history
    rw [hta, hrp]
  · intro r hr
    obtain ⟨m, hm, rfl⟩ := List.mem_map.1 hr
    obtain ⟨m0, hm0, _, _, hcl, _, _⟩ := ffill_merged_shape _ _ m hm
    obtain ⟨r0, hr0, hcl0⟩ := (merge_left_props rp ta m0 hm0).2
    have hcsome : m.close_price.isSome = true := by
      rw [hcl, hcl0]
      exact create_resampled_close_isSome _ _ hrp r0 hr0
    refine ⟨hcsome, ?_⟩
    intro hno
    have hta_tickers : ∀ lr ∈ ta, ∃ tr ∈ trades, lr.ticker = tr.ticker := by
      simp only [calculate_pnl_for_multiple_tickers] at hta
      split_ifs at hta with he
      rw [Except.ok.injEq] at hta
      intro lr hlr
      rw [← hta, List.mem_flatMap] at hlr
      obtain ⟨u, _, hlru⟩ := hlr
      obtain ⟨tr, htr2, he2⟩ := ticker_of_mem_process _ _ lr hlru
      have htrm : tr ∈ trades := (List.mem_insertionSort _).1
        ((List.mem_insertionSort _).1 (List.mem_filter.1 htr2).1)
      exact ⟨tr, htrm, he2⟩
    have hnota : ∀ lr ∈ ta, lr.ticker ≠ m.ticker := by
      intro lr hlr hc
      obtain ⟨tr, htr2, he2⟩ := hta_tickers lr hlr
      exact hno tr htr2 (he2 ▸ hc)
    have hmerged : ∀ mm ∈ merge_left rp ta, mm.ticker = m.ticker →
        mm.position_size_after_trade = none ∧
        mm.position_basis_after_trade = none ∧ mm.realized_pnl = none ∧
        mm.shares = none ∧ mm.price = none := by
      intro mm hmm he
      rw [merge_left, List.mem_flatMap] at hmm
      obtain ⟨rr, hrr, hmmr⟩ := hmm
      have hrrt : mm.ticker = rr.ticker := (merge_row_props ta rr mm hmmr).2.2
      have hnorr : ∀ lr ∈ ta, lr.ticker ≠ rr.ticker := by
        intro lr hlr hc2
        exact hnota lr hlr (by rw [hc2, ← hrrt, he])
      rw [merge_row_no_match ta rr hnorr, List.mem_singleton] at hmmr
      subst hmmr
      exact ⟨rfl, rfl, rfl, rfl, rfl⟩
    have hz := ffill_merged_none_ticker m.ticker (merge_left rp ta) _ rfl
      hmerged m hm rfl
    refine ⟨?_, ?_, ?_, ?_, ?_, ?_, ?_⟩ <;>
      simp [finalize_row, hz.1, hz.2.1, hz.2.2.1, hz.2.2.2.1, hz.2.2.2.2,
        naSub, naMul, naAdd]

/-- The zero-filled row pnl_history emits for ticker B, which has a price
but no trades. -/
def demo_zero_row : PnLHistoryRow :=
  { trade_date := 1, ticker := "B", close_price := some 7, shares := 0,
    trade_execution_price := 0, position_size_after_trade := 0,
    position_basis_after_trade := 0, realized_pnl := 0, unrealized_pnl := 0,
    total_pnl := 0 }

/-- Witness for C4: ticker B is present in prices but absent from trades and
its emitted analytics are zero-filled. -/
theorem pnl_history_graceful_witness :
    demo_zero_row.position_size_after_trade = 0 ∧
    demo_zero_row.total_pnl = 0 := by
  obtain ⟨rows, hok, hprop⟩ := pnl_history_graceful [⟨1, "A", 1, 10⟩]
    [⟨1, "A", 12⟩, ⟨1, "B", 7⟩] (by decide) (by decide)
  have heval : pnl_history [⟨1, "A", 1, 10⟩] [⟨1, "A", 12⟩, ⟨1, "B", 7⟩] =
      .ok [demo_history_row, demo_zero_row] := by
    simp only [pnl_history, calculate_pnl_for_multiple_tickers,
      init_sort_trades, init_sort_prices, create_resampled_prices,
      sorted_tickers, uniqueKeys, process_ticker_trades,
      process_ticker_trades_from, process_trade, resample_ticker,
      merge_left, merge_row, ffill_merged, finalize_row,
      List.insertionSort, List.orderedInsert]
    norm_num [dateTickerLe, tickerDateLe, priceDateTickerLe, List.filter,
      process_ticker_trades_from, process_trade, date_range, lookup_price,
      ffill_col, bfill_col, List.flatMap, merge_row, ffill_merged,
      finalize_row, naOr, naSub, naMul, naAdd, group_min_date, group_max_date,
      demo_history_row, demo_zero_row,
      show ((['A'] : List Char) ≤ ['B']) from by decide,
      show ¬ ((['B'] : List Char) ≤ ['A']) from by decide,
      show (("A" : String) == "B") = false from by decide,
      show (("B" : String) == "A") = false from by decide,
      show ¬ (("B" : String) = "A") from by decide,
      show ¬ (("A" : String) = "B") from by decide]
  rw [heval, Except.ok.injEq] at hok
  have hmem : demo_zero_row ∈ rows := by
    rw [← hok]
    exact List.mem_cons_of_mem _ (List.mem_cons_self _ _)
  have hz := (hprop demo_zero_row hmem).2 (by decide)
  exact ⟨hz.2.2.1, hz.2.2.2.2.2.2⟩

end PnLAnalytics
